import Mathlib

/-
Shallow embedding of `scripts/analyze-weight-diff.py`:
a diff-to-structured-data extraction pipeline (Record Extractor,
Function Segmenter, Change Aggregator) and a significance classifier.

Python strings are modelled as `List Char`.  The regular expressions of the
source are modelled by hand-written deterministic scanners; each scanner is
equivalent to its regex because in every pattern the character classes of
adjacent greedy pieces are disjoint from the character that follows, so the
greedy (maximal-munch) parse is the unique parse, and `re.search` semantics
(leftmost match) are modelled by trying every suffix left to right.
Python whitespace (`str.strip`, `\s`) is modelled by the ASCII whitespace
characters; `\d` and `\w` are modelled by their ASCII classes.
Fallible numeric conversion (`int("")` raises `ValueError`) is modelled by
`Option`/`Except`.
-/

namespace WeightDiff

abbrev Str := List Char

/-- ASCII whitespace as stripped by Python `str.strip()` and matched by `\s`. -/
def isPySpace (c : Char) : Bool :=
  c == ' ' || c == '\t' || c == '\n' || c == '\r' || c == '\x0b' || c == '\x0c'

/-- Characters of the regex class `\w` (ASCII fragment). -/
def isWordChar (c : Char) : Bool := c.isAlphanum || c == '_'

/-- Characters of the regex class `[\d_]`. -/
def isDigitOrUnd (c : Char) : Bool := c.isDigit || c == '_'

/-- Python `str.strip()` (ASCII whitespace). -/
def stripL (s : Str) : Str :=
  ((s.dropWhile isPySpace).reverse.dropWhile isPySpace).reverse

/-- Python `pre in s` restricted to `s` being scanned for substring `pre`:
`containsL sub s` is true iff `sub` occurs as a contiguous substring of `s`. -/
def containsL (sub : Str) : Str → Bool
  | [] => sub.isPrefixOf []
  | c :: rest => sub.isPrefixOf (c :: rest) || containsL sub rest

/-- Python `s.startswith(pre)`. -/
def startsWithL (pre s : Str) : Bool := pre.isPrefixOf s

/-- Consume an exact literal, returning the rest of the input. -/
def dropLit (lit s : Str) : Option Str :=
  if lit.isPrefixOf s then some (s.drop lit.length) else none

/-- Consume a non-empty maximal run of characters satisfying `p`
(the greedy `+` of a regex character class). -/
def munch1 (p : Char → Bool) (s : Str) : Option (Str × Str) :=
  match s.takeWhile p with
  | [] => none
  | t => some (t, s.dropWhile p)

/-- `re.search` semantics: try the pattern at every suffix, leftmost first. -/
def searchWith {α : Type} (m : Str → Option α) : Str → Option α
  | [] => m []
  | c :: rest =>
    match m (c :: rest) with
    | some a => some a
    | none => searchWith m rest

/-- Pattern `Minimum execution time:\s*([\d_]+)\s*picoseconds`, anchored. -/
def minTimeAt (s : Str) : Option Str := do
  let s1 ← dropLit "Minimum execution time:".data s
  let s2 := s1.dropWhile isPySpace
  let (tok, s3) ← munch1 isDigitOrUnd s2
  let s4 := s3.dropWhile isPySpace
  let _ ← dropLit "picoseconds".data s4
  pure tok

def minTimeSearch (s : Str) : Option Str := searchWith minTimeAt s

/-- Pattern `Weight::from_parts\(\s*([\d_]+)\s*,\s*([\d_]+)\s*\)`, anchored. -/
def fromPartsAt (s : Str) : Option (Str × Str) := do
  let s1 ← dropLit "Weight::from_parts(".data s
  let s2 := s1.dropWhile isPySpace
  let (t1, s3) ← munch1 isDigitOrUnd s2
  let s4 := s3.dropWhile isPySpace
  let s5 ← dropLit ",".data s4
  let s6 := s5.dropWhile isPySpace
  let (t2, s7) ← munch1 isDigitOrUnd s6
  let s8 := s7.dropWhile isPySpace
  let _ ← dropLit ")".data s8
  pure (t1, t2)

def fromPartsSearch (s : Str) : Option (Str × Str) := searchWith fromPartsAt s

/-- Pattern
`\.saturating_add\(Weight::from_parts\(\s*([\d_]+)\s*,\s*([\d_]+)\s*\)\.saturating_mul\((\w+)\.into\(\)\)\)`,
anchored. -/
def mulAt (s : Str) : Option (Str × Str × Str) := do
  let s1 ← dropLit ".saturating_add(Weight::from_parts(".data s
  let s2 := s1.dropWhile isPySpace
  let (t1, s3) ← munch1 isDigitOrUnd s2
  let s4 := s3.dropWhile isPySpace
  let s5 ← dropLit ",".data s4
  let s6 := s5.dropWhile isPySpace
  let (t2, s7) ← munch1 isDigitOrUnd s6
  let s8 := s7.dropWhile isPySpace
  let s9 ← dropLit ").saturating_mul(".data s8
  let (v, s10) ← munch1 isWordChar s9
  let _ ← dropLit ".into()))".data s10
  pure (t1, t2, v)

def mulSearch (s : Str) : Option (Str × Str × Str) := searchWith mulAt s

/-- Pattern `\.reads\(\((\d+)_u64\)\.saturating_mul\((\w+)`, anchored. -/
def readsPerVarAt (s : Str) : Option (Str × Str) := do
  let s1 ← dropLit ".reads((".data s
  let (ds, s2) ← munch1 Char.isDigit s1
  let s3 ← dropLit "_u64).saturating_mul(".data s2
  let (v, _) ← munch1 isWordChar s3
  pure (ds, v)

def readsPerVarSearch (s : Str) : Option (Str × Str) := searchWith readsPerVarAt s

/-- Pattern `\.reads\((\d+)_u64\)`, anchored. -/
def readsBaseAt (s : Str) : Option Str := do
  let s1 ← dropLit ".reads(".data s
  let (ds, s2) ← munch1 Char.isDigit s1
  let _ ← dropLit "_u64)".data s2
  pure ds

def readsBaseSearch (s : Str) : Option Str := searchWith readsBaseAt s

/-- Pattern `fn (\w+)` used on hunk headers, anchored. -/
def hunkFnAt (s : Str) : Option Str := do
  let s1 ← dropLit "fn ".data s
  let (v, _) ← munch1 isWordChar s1
  pure v

def hunkFnSearch (s : Str) : Option Str := searchWith hunkFnAt s

/-- Pattern `re.match(r"\s*fn (\w+)\s*\(", content)` (anchored at the start). -/
def fnDeclMatch (s : Str) : Option Str := do
  let s1 := s.dropWhile isPySpace
  let s2 ← dropLit "fn ".data s1
  let (v, s3) ← munch1 isWordChar s2
  let s4 := s3.dropWhile isPySpace
  let _ ← dropLit "(".data s4
  pure v

/-- Pattern `b/(runtime/\S+)` used on `diff --git` lines, anchored. -/
def bPathAt (s : Str) : Option Str :=
  match dropLit "b/runtime/".data s with
  | none => none
  | some s1 =>
    match munch1 (fun c => !isPySpace c) s1 with
    | none => none
    | some (tok, _) => some ("runtime/".data ++ tok)

def bPathSearch (s : Str) : Option Str := searchWith bPathAt s

/-- Value of a digit character. -/
def digitVal (c : Char) : Nat := c.toNat - 48

/-- Value of a non-empty digit string (`int` on a `\d+` group, total). -/
def natOfDigits (ds : Str) : Nat := ds.foldl (fun n c => n * 10 + digitVal c) 0

/-- `int(tok.replace("_", ""))` for a `[\d_]+` group: fails (ValueError)
when the group consists solely of underscores. -/
def parseNum (tok : Str) : Option Nat :=
  let ds := tok.filter (fun c => c != '_')
  if ds.isEmpty then none else some (natOfDigits ds)

/-- The only abnormal terminations of the program: the explicit empty-input
check, and an uncaught `ValueError` from `int("")`. -/
inductive PyErr where
  | noInput
  | numParse
deriving DecidableEq, Repr

/-- The dictionary built by `parse_weight_block` (one side of one function). -/
structure Block where
  base_ref : Nat
  base_proof : Nat
  min_execution_time : Option Nat
  ref_multipliers : List (Str × Nat)
  proof_multipliers : List (Str × Nat)
  db_reads_base : Nat
  db_reads_per_var : List (Str × Nat)
deriving DecidableEq, Repr

def emptyBlock : Block := ⟨0, 0, none, [], [], 0, []⟩

/-- Python `dict[k] = v`: replace the value at `k` in place, else append. -/
def upsert (m : List (Str × Nat)) (k : Str) (v : Nat) : List (Str × Nat) :=
  match m with
  | [] => [(k, v)]
  | (k2, v2) :: rest => if k2 = k then (k, v) :: rest else (k2, v2) :: upsert rest k v

/-- Python `dict.get(k, d)`. -/
def getD0 (m : List (Str × Nat)) (k : Str) : Nat :=
  match m with
  | [] => 0
  | (k2, v2) :: rest => if k2 = k then v2 else getD0 rest k

def satAddL : Str := "saturating_add".data

def satMulL : Str := "saturating_mul".data

/-- One iteration of the loop body of `parse_weight_block` (lines 34-84 of the
source): the recognizers are attempted in priority order and the first match
claims the line. -/
def pwbStep (b : Block) (line : Str) : Except PyErr Block :=
  let clean := stripL line
  match minTimeSearch clean with
  | some tok =>
    match parseNum tok with
    | some n => .ok { b with min_execution_time := some n }
    | none => .error .numParse
  | none =>
  match (if containsL satAddL clean then none else fromPartsSearch clean) with
  | some (t1, t2) =>
    match parseNum t1, parseNum t2 with
    | some x, some y => .ok { b with base_ref := x, base_proof := y }
    | _, _ => .error .numParse
  | none =>
  match mulSearch clean with
  | some (t1, t2, v) =>
    match parseNum t1, parseNum t2 with
    | some rv, some pv =>
      let b1 := if rv > 0 then { b with ref_multipliers := upsert b.ref_multipliers v rv } else b
      let b2 := if pv > 0 then { b1 with proof_multipliers := upsert b1.proof_multipliers v pv } else b1
      .ok b2
    | _, _ => .error .numParse
  | none =>
  match readsPerVarSearch clean with
  | some (ds, v) => .ok { b with db_reads_per_var := upsert b.db_reads_per_var v (natOfDigits ds) }
  | none =>
  match readsBaseSearch clean with
  | some ds => if containsL satMulL clean then .ok b else .ok { b with db_reads_base := natOfDigits ds }
  | none => .ok b

def pwbGo (b : Block) : List Str → Except PyErr Block
  | [] => .ok b
  | l :: ls =>
    match pwbStep b l with
    | .ok b2 => pwbGo b2 ls
    | .error e => .error e

/-- `parse_weight_block(lines)`: the Record Extractor. -/
def parseWeightBlock (lines : List Str) : Except PyErr Block :=
  pwbGo emptyBlock lines

/-- Append `v` to the list stored under key `k`
(Python `defaultdict(list)[k].append(v)`). -/
def appendAt {α : Type} (m : List (Str × List α)) (k : Str) (v : α) : List (Str × List α) :=
  match m with
  | [] => [(k, [v])]
  | (k2, vs) :: rest => if k2 = k then (k2, vs ++ [v]) :: rest else (k2, vs) :: appendAt rest k v

/-- Lookup with default `[]` (Python `dict.get(k, [])`). -/
def getL {α : Type} (m : List (Str × List α)) (k : Str) : List α :=
  match m with
  | [] => []
  | (k2, vs) :: rest => if k2 = k then vs else getL rest k

/-- State of the segmentation loop of `extract_function_diffs`:
the current-function cursor and the two per-function line buckets. -/
structure SegSt where
  cur : Option Str
  removed : List (Str × List Str)
  added : List (Str × List Str)
deriving DecidableEq, Repr

/-- `line[1:] if line and line[0] in " +-" else line`. -/
def contentOf (line : Str) : Str :=
  match line with
  | [] => []
  | c :: rest => if c == ' ' || c == '+' || c == '-' then rest else c :: rest

/-- A removal line appended to the removed bucket
(`line.startswith("-") and not line.startswith("---")`). -/
def isRemL (line : Str) : Bool :=
  startsWithL "-".data line && !startsWithL "---".data line

/-- An addition line appended to the added bucket. -/
def isAddL (line : Str) : Bool :=
  startsWithL "+".data line && !startsWithL "+++".data line

/-- A line skipped unconditionally at the top of the segmentation loop. -/
def isMetaL (line : Str) : Bool :=
  startsWithL "---".data line || startsWithL "+++".data line || startsWithL "index ".data line

/-- One iteration of the loop of `extract_function_diffs` (lines 94-115). -/
def segStep (st : SegSt) (line : Str) : SegSt :=
  if isMetaL line then st
  else if startsWithL "@@".data line then
    match hunkFnSearch line with
    | some f => { st with cur := some f }
    | none => st
  else
    let st1 :=
      match fnDeclMatch (contentOf line) with
      | some f => { st with cur := some f }
      | none => st
    match st1.cur with
    | none => st1
    | some f =>
      if isRemL line then { st1 with removed := appendAt st1.removed f (line.drop 1) }
      else if isAddL line then { st1 with added := appendAt st1.added f (line.drop 1) }
      else st1

/-- The Function Segmenter: the whole loop of `extract_function_diffs`. -/
def segmentLines (fileLines : List Str) : SegSt :=
  fileLines.foldl segStep ⟨none, [], []⟩

/-- `set(fn_removed_lines.keys()) | set(fn_added_lines.keys())`
(iteration order of the Python set is unspecified; modelled by `dedup`). -/
def segKeys (st : SegSt) : List Str :=
  (st.removed.map Prod.fst ++ st.added.map Prod.fst).dedup

/-- `old or new contains recognizable cost data` (lines 129-138). -/
def hasData (b : Block) : Bool :=
  b.base_ref > 0 || b.min_execution_time.isSome || !b.ref_multipliers.isEmpty

/-- The per-function loop of `extract_function_diffs` (lines 120-141). -/
def collectFns (rm am : List (Str × List Str)) : List Str → Except PyErr (List (Str × Block × Block))
  | [] => .ok []
  | fn :: rest =>
    let removed := getL rm fn
    let added := getL am fn
    if removed.isEmpty && added.isEmpty then collectFns rm am rest
    else
      match parseWeightBlock removed, parseWeightBlock added, collectFns rm am rest with
      | .ok ob, .ok nb, .ok out => .ok (if hasData ob || hasData nb then (fn, ob, nb) :: out else out)
      | .error e, _, _ => .error e
      | .ok _, .error e, _ => .error e
      | .ok _, .ok _, .error e => .error e

/-- `extract_function_diffs(file_lines)`. -/
def extractFunctionDiffs (fileLines : List Str) : Except PyErr (List (Str × Block × Block)) :=
  let st := segmentLines fileLines
  collectFns st.removed st.added (segKeys st)

/-- Python `s.split(sep)` for a single-character separator
(keeps empty pieces, total, never returns an empty list). -/
def splitOnChar (sep : Char) : Str → List Str
  | [] => [[]]
  | c :: rest =>
    let r := splitOnChar sep rest
    if c == sep then [] :: r
    else
      match r with
      | h :: t => (c :: h) :: t
      | [] => [[c]]

/-- Python `s.replace(".rs", "")`: remove every (non-overlapping, leftmost
first) occurrence of `.rs`. -/
def removeRs : Str → Str
  | '.' :: 'r' :: 's' :: rest => removeRs rest
  | c :: rest => c :: removeRs rest
  | [] => []

/-- Python `file_diffs[current_file] = current_lines` (dict assignment:
replace in place, else append). -/
def upsertR (m : List (Str × List Str)) (k : Str) (v : List Str) : List (Str × List Str) :=
  match m with
  | [] => [(k, v)]
  | (k2, v2) :: rest => if k2 = k then (k, v) :: rest else (k2, v2) :: upsertR rest k v

/-- Flush the current per-file accumulator (`if current_file and current_lines`).
A captured path always starts with `runtime/`, hence is never the empty
(falsy) string. -/
def flushFile (cf : Option Str) (cl : List Str) (acc : List (Str × List Str)) :
    List (Str × List Str) :=
  match cf with
  | some f => if cl.isEmpty then acc else upsertR acc f cl
  | none => acc

/-- The per-file splitting loop of `main` (lines 206-217 of the source). -/
def splitGo (cf : Option Str) (cl : List Str) (acc : List (Str × List Str)) :
    List Str → List (Str × List Str)
  | [] => flushFile cf cl acc
  | line :: rest =>
    if startsWithL "diff --git".data line then
      splitGo (bPathSearch line) [] (flushFile cf cl acc) rest
    else
      match cf with
      | some _ => splitGo cf (cl ++ [line]) acc rest
      | none => splitGo cf cl acc rest

/-- Split the diff text lines into per-file blocks, retaining only files whose
`diff --git` line contains a `b/runtime/...` path. -/
def splitFiles (lines : List Str) : List (Str × List Str) :=
  splitGo none [] [] lines

/-- `parts[1] if len(parts) > 1 else "unknown"` with `parts = filepath.split("/")`. -/
def runtimeOf (fp : Str) : Str :=
  let parts := splitOnChar '/' fp
  if parts.length > 1 then parts.getD 1 [] else "unknown".data

/-- `parts[-1].replace(".rs", "") if parts else "unknown"`. -/
def palletOf (fp : Str) : Str :=
  match (splitOnChar '/' fp).getLast? with
  | some last => removeRs last
  | none => "unknown".data

/-- One element of `all_changes` (lines 227-235). -/
structure Change where
  runtime : Str
  pallet : Str
  function : Str
  old : Block
  new : Block
deriving DecidableEq, Repr

/-- The per-file body of the aggregation loop (lines 220-235). -/
def changesOfFile (fp : Str) (flines : List Str) : Except PyErr (List Change) :=
  match extractFunctionDiffs flines with
  | .ok fds => .ok (fds.map (fun e => ⟨runtimeOf fp, palletOf fp, e.1, e.2.1, e.2.2⟩))
  | .error e => .error e

def changesGo : List (Str × List Str) → Except PyErr (List Change)
  | [] => .ok []
  | (fp, fl) :: rest =>
    match changesOfFile fp fl, changesGo rest with
    | .ok cs, .ok more => .ok (cs ++ more)
    | .error e, _ => .error e
    | .ok _, .error e => .error e

/-- The Change Aggregator: `all_changes` as a function of the diff lines. -/
def allChanges (lines : List Str) : Except PyErr (List Change) :=
  changesGo (splitFiles lines)

/-- The sentinel-aware percent value carried by a multiplier entry:
`float("inf")` ("appeared") or a finite value. -/
inductive Pct where
  | inf
  | val (q : ℚ)
deriving DecidableEq, Repr

/-- `pct(old, new)` for the branches where `old > 0` (the only way the code
calls it): `((new - old) / old) * 100`. -/
def pctQ (old new : Nat) : ℚ :=
  ((new : ℚ) - (old : ℚ)) / (old : ℚ) * 100

/-- Python truthiness of an `Optional[int]`. -/
def truthy : Option Nat → Bool
  | none => false
  | some n => n != 0

/-- `old_min and new_min and old_min > 0` (the guard of every
minimum-execution-time computation). -/
def minBoth (c : Change) : Bool :=
  truthy c.old.min_execution_time && truthy c.new.min_execution_time &&
    c.old.min_execution_time.getD 0 > 0

/-- Section 1 (lines 273-278): base ref_time increases above the threshold. -/
def sigBaseInc (changes : List Change) (t : ℚ) : List (Change × ℚ) :=
  changes.filterMap (fun c =>
    if c.old.base_ref > 0 ∧ c.new.base_ref > 0 then
      let p := pctQ c.old.base_ref c.new.base_ref
      if p > t then some (c, p) else none
    else none)

/-- Section 2 (lines 302-307): base ref_time decreases below minus the threshold. -/
def sigBaseDec (changes : List Change) (t : ℚ) : List (Change × ℚ) :=
  changes.filterMap (fun c =>
    if c.old.base_ref > 0 ∧ c.new.base_ref > 0 then
      let p := pctQ c.old.base_ref c.new.base_ref
      if p < -t then some (c, p) else none
    else none)

/-- One entry of `sig_mul` / `sig_proof`: `(c, var, old_val, new_val, p)`. -/
structure MulEntry where
  c : Change
  var : Str
  oldVal : Nat
  newVal : Nat
  p : Pct
deriving DecidableEq, Repr

/-- `set(old_muls.keys()) | set(new_muls.keys())` (unspecified set order,
modelled by `dedup`). -/
def allVars (old new : List (Str × Nat)) : List Str :=
  (old.map Prod.fst ++ new.map Prod.fst).dedup

/-- The per-variable loop body of Section 3 (lines 329-343). -/
def mulEntriesFor (c : Change) (t : ℚ) : List MulEntry :=
  (allVars c.old.ref_multipliers c.new.ref_multipliers).filterMap (fun v =>
    let ov := getD0 c.old.ref_multipliers v
    let nv := getD0 c.new.ref_multipliers v
    if ov > 0 ∧ nv > 0 then
      let p := pctQ ov nv
      if |p| > t then some ⟨c, v, ov, nv, .val p⟩ else none
    else if ov = 0 ∧ nv > 0 then some ⟨c, v, ov, nv, .inf⟩
    else if ov > 0 ∧ nv = 0 then some ⟨c, v, ov, nv, .val (-100)⟩
    else none)

/-- `sig_mul` before sorting. -/
def sigMul (changes : List Change) (t : ℚ) : List MulEntry :=
  changes.flatMap (fun c => mulEntriesFor c t)

/-- The per-variable loop body of Section 5 (lines 419-430): fixed threshold
100, and no "removed" case. -/
def proofEntriesFor (c : Change) : List MulEntry :=
  (allVars c.old.proof_multipliers c.new.proof_multipliers).filterMap (fun v =>
    let ov := getD0 c.old.proof_multipliers v
    let nv := getD0 c.new.proof_multipliers v
    if ov > 0 ∧ nv > 0 then
      let p := pctQ ov nv
      if |p| > 100 then some ⟨c, v, ov, nv, .val p⟩ else none
    else if ov = 0 ∧ nv > 0 then some ⟨c, v, ov, nv, .inf⟩
    else none)

/-- `sig_proof` before sorting. -/
def sigProof (changes : List Change) : List MulEntry :=
  changes.flatMap proofEntriesFor

/-- Section 4 (lines 390-397): minimum execution time changes above the
threshold in absolute value. -/
def sigMin (changes : List Change) (t : ℚ) : List (Change × Nat × Nat × ℚ) :=
  changes.filterMap (fun c =>
    if minBoth c then
      let om := c.old.min_execution_time.getD 0
      let nm := c.new.min_execution_time.getD 0
      let p := pctQ om nm
      if |p| > t then some (c, om, nm, p) else none
    else none)

/-- Section 7 (lines 495-501): every function with measured minimum execution
time on both sides. -/
def allMin (changes : List Change) : List (Change × Nat × Nat × ℚ) :=
  changes.filterMap (fun c =>
    if minBoth c then
      let om := c.old.min_execution_time.getD 0
      let nm := c.new.min_execution_time.getD 0
      some (c, om, nm, pctQ om nm)
    else none)

/-- The overall `min_changes` list (lines 246-251). -/
def minChangesOf (changes : List Change) : List ℚ :=
  changes.filterMap (fun c =>
    if minBoth c then
      some (pctQ (c.old.min_execution_time.getD 0) (c.new.min_execution_time.getD 0))
    else none)

/-- The sort key of Sections 3 and 5:
`abs(x[4]) if x[4] != float("inf") else 999999`. -/
def mulKey (e : MulEntry) : ℚ :=
  match e.p with
  | .inf => 999999
  | .val q => |q|

def mulGe (a b : MulEntry) : Prop := mulKey a ≥ mulKey b

instance mulGeDec : DecidableRel mulGe :=
  fun a b => inferInstanceAs (Decidable (mulKey a ≥ mulKey b))

instance mulGeTotal : IsTotal MulEntry mulGe := ⟨fun a b => le_total (mulKey b) (mulKey a)⟩

instance mulGeTrans : IsTrans MulEntry mulGe := ⟨fun _ _ _ h1 h2 => le_trans h2 h1⟩

/-- Python `list.sort(key=..., reverse=True)` on Sections 3 and 5: a stable
descending sort, modelled by insertion sort on the `ge` relation. -/
def sortMul (l : List MulEntry) : List MulEntry := List.insertionSort mulGe l

def baseGe (a b : Change × ℚ) : Prop := a.2 ≥ b.2

instance baseGeDec : DecidableRel baseGe :=
  fun a b => inferInstanceAs (Decidable (a.2 ≥ b.2))

instance baseGeTotal : IsTotal (Change × ℚ) baseGe := ⟨fun a b => le_total b.2 a.2⟩

instance baseGeTrans : IsTrans (Change × ℚ) baseGe := ⟨fun _ _ _ h1 h2 => le_trans h2 h1⟩

/-- Section 1 sort: `key=lambda x: x[1], reverse=True`. -/
def sortBaseInc (l : List (Change × ℚ)) : List (Change × ℚ) := List.insertionSort baseGe l

def baseLe (a b : Change × ℚ) : Prop := a.2 ≤ b.2

instance baseLeDec : DecidableRel baseLe :=
  fun a b => inferInstanceAs (Decidable (a.2 ≤ b.2))

instance baseLeTotal : IsTotal (Change × ℚ) baseLe := ⟨fun a b => le_total a.2 b.2⟩

instance baseLeTrans : IsTrans (Change × ℚ) baseLe := ⟨fun _ _ _ h1 h2 => le_trans h1 h2⟩

/-- Section 2 sort: `key=lambda x: x[1]` (ascending). -/
def sortBaseDec (l : List (Change × ℚ)) : List (Change × ℚ) := List.insertionSort baseLe l

def minKey (e : Change × Nat × Nat × ℚ) : ℚ := |e.2.2.2|

def minGe (a b : Change × Nat × Nat × ℚ) : Prop := minKey a ≥ minKey b

instance minGeDec : DecidableRel minGe :=
  fun a b => inferInstanceAs (Decidable (minKey a ≥ minKey b))

instance minGeTotal : IsTotal (Change × Nat × Nat × ℚ) minGe :=
  ⟨fun a b => le_total (minKey b) (minKey a)⟩

instance minGeTrans : IsTrans (Change × Nat × Nat × ℚ) minGe :=
  ⟨fun _ _ _ h1 h2 => le_trans h2 h1⟩

/-- Sections 4 and 7 sort: `key=lambda x: abs(x[3]), reverse=True`. -/
def sortMin (l : List (Change × Nat × Nat × ℚ)) : List (Change × Nat × Nat × ℚ) :=
  List.insertionSort minGe l

/-- The group key of Section 3: `f"[{runtime}] {pallet}::{function}"`. -/
def keyOf (c : Change) : Str :=
  "[".data ++ c.runtime ++ "] ".data ++ c.pallet ++ "::".data ++ c.function

/-- `by_fn` (lines 350-354): group the sorted entries by key, in encounter
order, appending within a group. -/
def groupByKey (entries : List MulEntry) : List (Str × List MulEntry) :=
  entries.foldl (fun m e => appendAt m (keyOf e.c) e) []

/-- Python string `<` (lexicographic by code point). -/
def strLt : Str → Str → Bool
  | [], [] => false
  | [], _ :: _ => true
  | _ :: _, [] => false
  | a :: as, b :: bs => if a < b then true else if b < a then false else strLt as bs

def strLe (a b : Str) : Prop := strLt b a = false

instance strLeDec : DecidableRel strLe :=
  fun a b => inferInstanceAs (Decidable (strLt b a = false))

/-- `sorted(by_fn.keys())`. -/
def sortKeys (l : List Str) : List Str := List.insertionSort strLe l

/-- The unconditional per-variable DB-read delta lines printed for one
function (lines 372-379): every variable of either read-multiplier mapping
whose old and new values differ, with no threshold test. -/
def readDeltasOf (c : Change) : List (Str × Nat × Nat) :=
  (allVars c.old.db_reads_per_var c.new.db_reads_per_var).filterMap (fun rv =>
    let ov := getD0 c.old.db_reads_per_var rv
    let nv := getD0 c.new.db_reads_per_var rv
    if ov ≠ nv then some (rv, ov, nv) else none)

/-- All DB-read delta lines printed by Section 3, tagged with the group key:
for each sorted group key, the deltas of the change that owns the first
entry of the group (`c0 = entries[0][0]`). -/
def reportedReadDeltas (changes : List Change) (t : ℚ) : List (Str × Str × Nat × Nat) :=
  let groups := groupByKey (sortMul (sigMul changes t))
  (sortKeys (groups.map Prod.fst)).flatMap (fun k =>
    match getL groups k with
    | e0 :: _ => (readDeltasOf e0.c).map (fun d => (k, d))
    | [] => [])

/-- The hardcoded runtime list of Section 6 (line 453). -/
def fixedRuntimes : List Str :=
  ["moonbase".data, "moonbeam".data, "moonriver".data]

/-- `rt_min_changes` for one runtime (lines 458-467). -/
def rtMinChanges (changes : List Change) (rt : Str) : List ℚ :=
  minChangesOf (changes.filter (fun c => c.runtime = rt))

/-- The runtimes for which Section 6 prints a summary: members of the
hardcoded list with a non-empty change set and a non-empty
minimum-execution-time change list. -/
def summarizedRuntimes (changes : List Change) : List Str :=
  fixedRuntimes.filter (fun rt =>
    ¬ (changes.filter (fun c => c.runtime = rt)).isEmpty ∧
    ¬ (rtMinChanges changes rt).isEmpty)

/-- The structured content of the printed report, section by section. -/
structure Report where
  changes : List Change
  overallMin : List ℚ
  baseInc : List (Change × ℚ)
  baseDec : List (Change × ℚ)
  mulSection : List MulEntry
  readDeltaSection : List (Str × Str × Nat × Nat)
  minSection : List (Change × Nat × Nat × ℚ)
  proofSection : List MulEntry
  runtimeSummary : List Str
  fullTable : List (Change × Nat × Nat × ℚ)
deriving DecidableEq, Repr

/-- Everything `main` prints after the empty-input check, as structured data. -/
def buildReport (changes : List Change) (t : ℚ) : Report :=
  ⟨changes,
   minChangesOf changes,
   sortBaseInc (sigBaseInc changes t),
   sortBaseDec (sigBaseDec changes t),
   sortMul (sigMul changes t),
   reportedReadDeltas changes t,
   sortMin (sigMin changes t),
   sortMul (sigProof changes),
   summarizedRuntimes changes,
   sortMin (allMin changes)⟩

/-- `not diff_text.strip()`. -/
def isBlankInput (input : Str) : Bool := (stripL input).isEmpty

/-- The whole run of `main` on the raw diff text (after the excluded CLI
layer): the empty-input check (lines 195-197), then the pipeline. -/
def analyze (input : Str) (t : ℚ) : Except PyErr Report :=
  if isBlankInput input then .error .noInput
  else
    match allChanges (splitOnChar '\n' input) with
    | .ok changes => .ok (buildReport changes t)
    | .error e => .error e

/-
Concrete inputs used by the per-claim counterexamples and witnesses.
-/

/-- Two lines both matching the bare two-argument `Weight::from_parts`
pattern (neither contains `saturating_add`). -/
def c1Lines : List Str :=
  ["Weight::from_parts(100, 5)".data, "Weight::from_parts(300, 7)".data]

def c1Block : Block := { emptyBlock with base_ref := 300, base_proof := 7 }

/-- A diff touching a file under `runtime/` with no `weights` path segment
and a non-`.rs` extension. -/
def c2Lines : List Str :=
  ["diff --git a/runtime/common/src/utils.txt b/runtime/common/src/utils.txt".data,
   "@@ -1 +1 @@ fn foo(".data,
   "-    Weight::from_parts(100, 5)".data,
   "+    Weight::from_parts(300, 5)".data]

def c2Path : Str := "runtime/common/src/utils.txt".data

def c2Change : Change :=
  ⟨"common".data, "utils.txt".data, "foo".data,
   { emptyBlock with base_ref := 100, base_proof := 5 },
   { emptyBlock with base_ref := 300, base_proof := 5 }⟩

/-- A per-variable storage-read term with multiplier literal `0`. -/
def c3Lines : List Str := [".reads((0_u64).saturating_mul(x.into()))".data]

def c3Block : Block := { emptyBlock with db_reads_per_var := [("x".data, 0)] }

/-- A multiplier term with positive time and proof-size values. -/
def c3wLines : List Str :=
  [".saturating_add(Weight::from_parts(500, 3).saturating_mul(n.into()))".data]

def c3wBlock : Block :=
  { emptyBlock with ref_multipliers := [("n".data, 500)],
                    proof_multipliers := [("n".data, 3)] }

def c4Lines : List Str :=
  ["@@ -1 +1 @@ fn foo(".data, "-Weight::from_parts(100, 5)".data]

def c4Old : Block := { emptyBlock with base_ref := 100, base_proof := 5 }

def c4Out : List (Str × Block × Block) := [("foo".data, c4Old, emptyBlock)]

/-- A function whose storage-read multiplier for `n` changed `0 -> 2` but
which has no time-multiplier entry at all. -/
def c5Change : Change :=
  ⟨"moonbase".data, "p".data, "f".data,
   emptyBlock,
   { emptyBlock with db_reads_per_var := [("n".data, 2)] }⟩

/-- A change whose runtime identifier is `common` (a path segment that does
occur under the top-level `runtime` directory), with measured minimum
execution time on both sides. -/
def c6Change : Change :=
  ⟨"common".data, "p".data, "f".data,
   { emptyBlock with min_execution_time := some 100 },
   { emptyBlock with min_execution_time := some 200 }⟩

def c6wChange : Change := { c6Change with runtime := "moonbase".data }

/-- A time-multiplier change of `1 -> 20000` (finite percent 1999900, above
the 999999 sort key of the "appeared" sentinel) next to an appeared entry. -/
def c7Change : Change :=
  ⟨"moonbase".data, "p".data, "f".data,
   { emptyBlock with ref_multipliers := [("a".data, 1)] },
   { emptyBlock with ref_multipliers := [("a".data, 20000), ("b".data, 5)] }⟩

def c7e1 : MulEntry := ⟨c7Change, "a".data, 1, 20000, .val 1999900⟩

def c7e2 : MulEntry := ⟨c7Change, "b".data, 0, 5, .inf⟩

/-- Base ref_time `100 -> 200`, minimum execution time `100 -> 300`, and a
per-variable time multiplier `10 -> 100`. -/
def c8a : Change :=
  ⟨"moonbase".data, "p".data, "f".data,
   { emptyBlock with base_ref := 100, min_execution_time := some 100,
                     ref_multipliers := [("n".data, 10)] },
   { emptyBlock with base_ref := 200, min_execution_time := some 300,
                     ref_multipliers := [("n".data, 100)] }⟩

/-- Base ref_time `200 -> 50` (a 75% decrease). -/
def c8b : Change :=
  ⟨"moonbase".data, "q".data, "g".data,
   { emptyBlock with base_ref := 200 },
   { emptyBlock with base_ref := 50 }⟩

/-- A non-blank diff whose only matched numeric token is an all-underscore
`[\d_]+` group, on which `int(tok.replace("_", ""))` raises `ValueError`. -/
def c9Bad : Str :=
  ("diff --git a/runtime/m/weights/p.rs b/runtime/m/weights/p.rs\n" ++
   "@@ -1 +1 @@ fn foo(\n" ++
   "-Minimum execution time: _ picoseconds").data

/-- A first hunk identifying `fn foo`, then a hunk with no function token
whose body holds the removal lines `---x` (content `--x`) and `-y`. -/
def c10Lines : List Str :=
  ["@@ -1 +1 @@ fn foo(".data, "@@ -2 +2 @@".data, "---x".data, "-y".data]

def c10St : SegSt := ⟨some "foo".data, [], []⟩

/-- C1 counterexample: on a side containing two lines that both match the
base cost declaration pattern, the extracted `baseTime`/`baseProofSize` come
from the second (later) matching line, `300`/`7`, not from the `100`/`5` of
the first line — each matching line overwrites the fields, so the claimed
rule that any later matching line is ignored is false on the code. -/
theorem claim1_counterexample :
    parseWeightBlock c1Lines = Except.ok c1Block ∧
    c1Block.base_ref = 300 ∧ c1Block.base_proof = 7 ∧ c1Block.base_ref ≠ 100 :=
  ⟨rfl, rfl, rfl, by decide⟩

/-- C2 counterexample: a diff block for `runtime/common/src/utils.txt` — a
path with no `weights` segment — is retained by the aggregator and yields a
change whose pallet identifier `utils.txt` keeps its extension, refuting
both "retains only ... weights path shape" and "pallet identifier equals the
filename without its extension". -/
theorem claim2_counterexample :
    splitFiles c2Lines = [(c2Path, c2Lines.drop 1)] ∧
    containsL "weights".data c2Path = false ∧
    allChanges c2Lines = Except.ok [c2Change] ∧
    c2Change.pallet = "utils.txt".data :=
  ⟨rfl, rfl, rfl, rfl⟩

/-- C3 counterexample: a matched per-variable storage-read term with value
`0` is stored in the storage-read multiplier mapping, not dropped, so the
mapping is not restricted to strictly positive values. -/
theorem claim3_counterexample :
    parseWeightBlock c3Lines = Except.ok c3Block ∧
    ("x".data, 0) ∈ c3Block.db_reads_per_var :=
  ⟨rfl, by decide⟩

/-- C5 counterexample: `c5Change` has a differing storage-read multiplier
for `n` (`0 -> 2`), yet no read-multiplier delta is reported because the
function has no significant time-multiplier entry — the reporting is gated
on membership in the significant time-multiplier groups, refuting
"reported ... regardless of whether that function has any time-multiplier
entry flagged as significant". -/
theorem claim5_counterexample :
    readDeltasOf c5Change = [("n".data, 0, 2)] ∧
    sigMul [c5Change] 50 = [] ∧
    reportedReadDeltas [c5Change] 50 = [] :=
  ⟨rfl, rfl, rfl⟩

/-- C6 counterexample: the runtime identifier `common` appears in the change
list with minimum-execution-time data on both sides, yet no per-runtime
summary is produced for it, because Section 6 iterates only the hardcoded
list `moonbase, moonbeam, moonriver`. -/
theorem claim6_counterexample :
    summarizedRuntimes [c6Change] = [] ∧
    c6Change.runtime = "common".data ∧
    minBoth c6Change = true :=
  ⟨rfl, rfl, rfl⟩

/-- C9 counterexample: a non-blank input on which the run still terminates
abnormally — the matched all-underscore numeric token makes
`int(tok.replace("_", ""))` raise — so blank input is not the only fatal
condition, refuting the "if and only if"/"only fatal condition" parts. -/
theorem claim9_counterexample :
    analyze c9Bad 50 = Except.error PyErr.numParse ∧
    isBlankInput c9Bad = false :=
  ⟨rfl, rfl⟩

/-- C10 counterexample: after `fn foo` is identified, the hunk
`@@ -2 +2 @@` (no function token, no declaration lines in its body) holds
the removal lines `---x` and `-y`; only `y` is attributed to `foo` — the
removed line `---x` is discarded by the unconditional metadata skip even
though a function has been identified, refuting "all added and removed lines
of that hunk are attributed ... only lines seen before any function has ever
been identified are discarded". -/
theorem claim10_counterexample :
    segmentLines c10Lines = ⟨some "foo".data, [("foo".data, ["y".data])], []⟩ ∧
    hunkFnSearch "@@ -2 +2 @@".data = none ∧
    startsWithL "-".data "---x".data = true ∧
    fnDeclMatch (contentOf "---x".data) = none ∧
    fnDeclMatch (contentOf "-y".data) = none :=
  ⟨rfl, rfl, rfl, rfl, rfl⟩

/-- A line is claimed by the base-cost recognizer of `parse_weight_block`:
it is not claimed by the minimum-execution-time recognizer, does not contain
`saturating_add`, matches the two-argument `Weight::from_parts` pattern, and
both numeric tokens parse. -/
def baseMatch (l : Str) : Option (Nat × Nat) :=
  let clean := stripL l
  match minTimeSearch clean with
  | some _ => none
  | none =>
    match (if containsL satAddL clean then none else fromPartsSearch clean) with
    | some (t1, t2) =>
      match parseNum t1, parseNum t2 with
      | some x, some y => some (x, y)
      | _, _ => none
    | none => none

theorem pwbStep_base (b : Block) (l : Str) (x y : Nat)
    (h : baseMatch l = some (x, y)) :
    pwbStep b l = .ok { b with base_ref := x, base_proof := y } := by
  unfold baseMatch at h
  unfold pwbStep
  cases hmin : minTimeSearch (stripL l) with
  | some tok => simp [hmin] at h
  | none =>
    simp only [hmin] at h ⊢
    cases hbase : (if containsL satAddL (stripL l) then none else fromPartsSearch (stripL l)) with
    | none => simp [hbase] at h
    | some pr =>
      obtain ⟨t1, t2⟩ := pr
      simp only [hbase] at h ⊢
      cases h1 : parseNum t1 with
      | none => simp [h1] at h
      | some x2 =>
        cases h2 : parseNum t2 with
        | none => simp [h1, h2] at h
        | some y2 =>
          simp only [h1, h2, Option.some.injEq, Prod.mk.injEq] at h ⊢
          rw [h.1, h.2]

theorem pwbGo_append (xs ys : List Str) (b : Block) :
    pwbGo b (xs ++ ys) =
      match pwbGo b xs with
      | .ok b2 => pwbGo b2 ys
      | .error e => Except.error e := by
  induction xs generalizing b with
  | nil => simp [pwbGo]
  | cons l ls ih =>
    simp only [List.cons_append, pwbGo]
    cases pwbStep b l with
    | ok b2 => exact ih b2
    | error e => rfl

theorem pwbStep_nobase (b b2 : Block) (l : Str)
    (hm : baseMatch l = none) (h : pwbStep b l = .ok b2) :
    b2.base_ref = b.base_ref ∧ b2.base_proof = b.base_proof := by
  unfold baseMatch at hm
  unfold pwbStep at h
  cases hA : minTimeSearch (stripL l) with
  | some tok =>
    simp only [hA] at h
    cases hA2 : parseNum tok with
    | some n =>
      simp only [hA2, Except.ok.injEq] at h
      rw [← h]
      exact ⟨rfl, rfl⟩
    | none => simp [hA2] at h
  | none =>
    simp only [hA] at hm h
    cases hB : (if containsL satAddL (stripL l) then none else fromPartsSearch (stripL l)) with
    | some pr =>
      obtain ⟨t1, t2⟩ := pr
      simp only [hB] at hm h
      cases hB1 : parseNum t1 with
      | none => simp [hB1] at h
      | some x =>
        cases hB2 : parseNum t2 with
        | none => simp [hB1, hB2] at h
        | some y => simp [hB1, hB2] at hm
    | none =>
    simp only [hB] at h
    cases hC : mulSearch (stripL l) with
    | some tr =>
      obtain ⟨t1, t2, v⟩ := tr
      simp only [hC] at h
      cases hx : parseNum t1 with
      | none => simp [hx] at h
      | some rv =>
        cases hy : parseNum t2 with
        | none => simp [hx, hy] at h
        | some pv =>
          simp only [hx, hy, Except.ok.injEq] at h
          rw [← h]
          by_cases hrv : rv > 0
          · by_cases hpv : pv > 0
            · simp only [if_pos hrv, if_pos hpv]
              exact ⟨by trivial, by trivial⟩
            · simp only [if_pos hrv, if_neg hpv]
              exact ⟨by trivial, by trivial⟩
          · by_cases hpv : pv > 0
            · simp only [if_neg hrv, if_pos hpv]
              exact ⟨by trivial, by trivial⟩
            · simp only [if_neg hrv, if_neg hpv]
              exact ⟨by trivial, by trivial⟩
    | none =>
    simp only [hC] at h
    cases hD : readsPerVarSearch (stripL l) with
    | some pr =>
      obtain ⟨ds, v⟩ := pr
      simp only [hD, Except.ok.injEq] at h
      rw [← h]
      exact ⟨rfl, rfl⟩
    | none =>
    simp only [hD] at h
    cases hE : readsBaseSearch (stripL l) with
    | some ds =>
      simp only [hE] at h
      by_cases hc : containsL satMulL (stripL l)
      · simp only [if_pos hc, Except.ok.injEq] at h
        rw [← h]
        exact ⟨rfl, rfl⟩
      · simp only [if_neg hc, Except.ok.injEq] at h
        rw [← h]
        exact ⟨rfl, rfl⟩
    | none =>
      simp only [hE, Except.ok.injEq] at h
      rw [← h]
      exact ⟨rfl, rfl⟩

theorem pwbGo_nobase : ∀ (lines2 : List Str) (b b2 : Block),
    (∀ l ∈ lines2, baseMatch l = none) →
    pwbGo b lines2 = .ok b2 →
    b2.base_ref = b.base_ref ∧ b2.base_proof = b.base_proof := by
  intro lines2
  induction lines2 with
  | nil =>
    intro b b2 _ h
    simp only [pwbGo, Except.ok.injEq] at h
    rw [← h]
    exact ⟨rfl, rfl⟩
  | cons l ls ih =>
    intro b b2 hno h
    simp only [pwbGo] at h
    cases hs : pwbStep b l with
    | error e => rw [hs] at h; exact absurd h (by simp)
    | ok bmid =>
      rw [hs] at h
      have h1 := pwbStep_nobase b bmid l (hno l (List.mem_cons_self _ _)) hs
      have h2 := ih bmid b2 (fun x hx => hno x (List.mem_cons_of_mem _ hx)) h
      exact ⟨h2.1.trans h1.1, h2.2.trans h1.2⟩

/-- C1 (amended): the base-cost declaration fields are last-match-wins, not
first-match-wins: whenever a side decomposes as any earlier lines, then a
line claimed by the base recognizer with values `(x, y)`, then any trailing
lines not claimed by the base recognizer (the typical shape, where the base
term is followed by `saturating_add` and reads lines), the extracted record
carries exactly `(x, y)`, whatever earlier matching lines said. -/
theorem claim1_thm (lines1 : List Str) (l : Str) (lines2 : List Str)
    (x y : Nat) (b : Block)
    (hm : baseMatch l = some (x, y))
    (hrest : ∀ l2 ∈ lines2, baseMatch l2 = none)
    (hp : parseWeightBlock (lines1 ++ l :: lines2) = Except.ok b) :
    b.base_ref = x ∧ b.base_proof = y := by
  unfold parseWeightBlock at hp
  rw [pwbGo_append] at hp
  cases hpre : pwbGo emptyBlock lines1 with
  | error e => rw [hpre] at hp; exact absurd hp (by simp)
  | ok b1 =>
    rw [hpre] at hp
    simp only [pwbGo] at hp
    rw [pwbStep_base b1 l x y hm] at hp
    exact pwbGo_nobase lines2 { b1 with base_ref := x, base_proof := y } b hrest hp

def c1wBlock : Block := ⟨300, 7, none, [], [], 9, []⟩

/-- C1 witness: the amended last-match-wins statement applied to a concrete
side whose last base-matching line is followed by a non-matching
`saturating_add` reads line. -/
theorem claim1_witness : c1wBlock.base_ref = 300 ∧ c1wBlock.base_proof = 7 :=
  claim1_thm ["Weight::from_parts(100, 5)".data]
    ("Weight::from_parts(300, 7)".data)
    [".saturating_add(T::DbWeight::get().reads(9_u64))".data]
    300 7 c1wBlock rfl (by decide) rfl

theorem upsert_pos : ∀ (m : List (Str × Nat)) (k : Str) (v : Nat),
    (∀ p ∈ m, 0 < p.2) → 0 < v → ∀ p ∈ upsert m k v, 0 < p.2 := by
  intro m
  induction m with
  | nil =>
    intro k v _ hv p hp
    simp only [upsert, List.mem_singleton] at hp
    rw [hp]
    exact hv
  | cons hd tl ih =>
    intro k v hm hv p hp
    obtain ⟨k2, v2⟩ := hd
    simp only [upsert] at hp
    by_cases hk : k2 = k
    · rw [if_pos hk] at hp
      rcases List.mem_cons.mp hp with h | h
      · rw [h]; exact hv
      · exact hm p (List.mem_cons_of_mem _ h)
    · rw [if_neg hk] at hp
      rcases List.mem_cons.mp hp with h | h
      · rw [h]; exact hm (k2, v2) (List.mem_cons_self _ _)
      · exact ih k v (fun q hq => hm q (List.mem_cons_of_mem _ hq)) hv p h

theorem pwbStep_pos (b b2 : Block) (l : Str)
    (h : pwbStep b l = .ok b2)
    (h1 : ∀ p ∈ b.ref_multipliers, 0 < p.2)
    (h2 : ∀ p ∈ b.proof_multipliers, 0 < p.2) :
    (∀ p ∈ b2.ref_multipliers, 0 < p.2) ∧ (∀ p ∈ b2.proof_multipliers, 0 < p.2) := by
  unfold pwbStep at h
  cases hA : minTimeSearch (stripL l) with
  | some tok =>
    simp only [hA] at h
    cases hA2 : parseNum tok with
    | some n =>
      simp only [hA2, Except.ok.injEq] at h
      rw [← h]
      exact ⟨h1, h2⟩
    | none => simp [hA2] at h
  | none =>
    simp only [hA] at h
    cases hB : (if containsL satAddL (stripL l) then none else fromPartsSearch (stripL l)) with
    | some pr =>
      obtain ⟨t1, t2⟩ := pr
      simp only [hB] at h
      cases hB1 : parseNum t1 with
      | none => simp [hB1] at h
      | some x =>
        cases hB2 : parseNum t2 with
        | none => simp [hB1, hB2] at h
        | some y =>
          simp only [hB1, hB2, Except.ok.injEq] at h
          rw [← h]
          exact ⟨h1, h2⟩
    | none =>
    simp only [hB] at h
    cases hC : mulSearch (stripL l) with
    | some tr =>
      obtain ⟨t1, t2, v⟩ := tr
      simp only [hC] at h
      cases hx : parseNum t1 with
      | none => simp [hx] at h
      | some rv =>
        cases hy : parseNum t2 with
        | none => simp [hx, hy] at h
        | some pv =>
          simp only [hx, hy, Except.ok.injEq] at h
          rw [← h]
          by_cases hrv : rv > 0
          · by_cases hpv : pv > 0
            · simp only [if_pos hrv, if_pos hpv]
              exact ⟨upsert_pos _ _ _ h1 hrv, upsert_pos _ _ _ h2 hpv⟩
            · simp only [if_pos hrv, if_neg hpv]
              exact ⟨upsert_pos _ _ _ h1 hrv, h2⟩
          · by_cases hpv : pv > 0
            · simp only [if_neg hrv, if_pos hpv]
              exact ⟨h1, upsert_pos _ _ _ h2 hpv⟩
            · simp only [if_neg hrv, if_neg hpv]
              exact ⟨h1, h2⟩
    | none =>
    simp only [hC] at h
    cases hD : readsPerVarSearch (stripL l) with
    | some pr =>
      obtain ⟨ds, v⟩ := pr
      simp only [hD, Except.ok.injEq] at h
      rw [← h]
      exact ⟨h1, h2⟩
    | none =>
    simp only [hD] at h
    cases hE : readsBaseSearch (stripL l) with
    | some ds =>
      simp only [hE] at h
      by_cases hc : containsL satMulL (stripL l)
      · simp only [if_pos hc, Except.ok.injEq] at h
        rw [← h]
        exact ⟨h1, h2⟩
      · simp only [if_neg hc, Except.ok.injEq] at h
        rw [← h]
        exact ⟨h1, h2⟩
    | none =>
      simp only [hE, Except.ok.injEq] at h
      rw [← h]
      exact ⟨h1, h2⟩

theorem pwbGo_pos : ∀ (lines : List Str) (b b2 : Block),
    pwbGo b lines = .ok b2 →
    (∀ p ∈ b.ref_multipliers, 0 < p.2) →
    (∀ p ∈ b.proof_multipliers, 0 < p.2) →
    (∀ p ∈ b2.ref_multipliers, 0 < p.2) ∧ (∀ p ∈ b2.proof_multipliers, 0 < p.2) := by
  intro lines
  induction lines with
  | nil =>
    intro b b2 h h1 h2
    simp only [pwbGo, Except.ok.injEq] at h
    rw [← h]
    exact ⟨h1, h2⟩
  | cons l ls ih =>
    intro b b2 h h1 h2
    simp only [pwbGo] at h
    cases hs : pwbStep b l with
    | error e => rw [hs] at h; exact absurd h (by simp)
    | ok bmid =>
      rw [hs] at h
      obtain ⟨m1, m2⟩ := pwbStep_pos b bmid l hs h1 h2
      exact ih bmid b2 h m1 m2

/-- C3 (amended): in every successfully extracted record, the time-multiplier
and proof-size-multiplier mappings contain only strictly positive values
(zero-valued matches are dropped); the storage-read multiplier mapping is not
so restricted — the counterexample stores a zero there. -/
theorem claim3_thm (lines : List Str) (b : Block)
    (h : parseWeightBlock lines = Except.ok b) :
    (∀ p ∈ b.ref_multipliers, 0 < p.2) ∧ (∀ p ∈ b.proof_multipliers, 0 < p.2) :=
  pwbGo_pos lines emptyBlock b h (by simp [emptyBlock]) (by simp [emptyBlock])

/-- C3 witness: the positivity statement applied to a concrete extraction
with one time multiplier (500) and one proof-size multiplier (3). -/
theorem claim3_witness :
    (("n".data, 500) ∈ c3wBlock.ref_multipliers ∧ 0 < (500 : Nat)) ∧
    (("n".data, 3) ∈ c3wBlock.proof_multipliers ∧ 0 < (3 : Nat)) :=
  ⟨⟨by decide, (claim3_thm c3wLines c3wBlock rfl).1 ("n".data, 500) (by decide)⟩,
   ⟨by decide, (claim3_thm c3wLines c3wBlock rfl).2 ("n".data, 3) (by decide)⟩⟩

theorem collectFns_mem : ∀ (fns : List Str) (rm am : List (Str × List Str))
    (out : List (Str × Block × Block)),
    collectFns rm am fns = .ok out →
    ∀ fn ob nb, ((fn, ob, nb) ∈ out ↔
      fn ∈ fns ∧ parseWeightBlock (getL rm fn) = .ok ob ∧
      parseWeightBlock (getL am fn) = .ok nb ∧ (hasData ob || hasData nb) = true) := by
  intro fns
  induction fns with
  | nil =>
    intro rm am out h fn ob nb
    simp only [collectFns, Except.ok.injEq] at h
    rw [← h]
    simp
  | cons fn0 rest ih =>
    intro rm am out h fn ob nb
    simp only [collectFns] at h
    by_cases hemp : ((getL rm fn0).isEmpty && (getL am fn0).isEmpty) = true
    · rw [if_pos hemp] at h
      rw [ih rm am out h fn ob nb]
      constructor
      · rintro ⟨hmem, hrest⟩
        exact ⟨List.mem_cons_of_mem _ hmem, hrest⟩
      · rintro ⟨hmem, hob, hnb, hdata⟩
        rcases List.mem_cons.mp hmem with heq | hmem2
        · subst heq
          rw [Bool.and_eq_true, List.isEmpty_iff, List.isEmpty_iff] at hemp
          rw [hemp.1] at hob
          rw [hemp.2] at hnb
          have hob2 : emptyBlock = ob := by
            have hq : (Except.ok emptyBlock : Except PyErr Block) = Except.ok ob := hob
            exact Except.ok.inj hq
          have hnb2 : emptyBlock = nb := by
            have hq : (Except.ok emptyBlock : Except PyErr Block) = Except.ok nb := hnb
            exact Except.ok.inj hq
          rw [← hob2, ← hnb2] at hdata
          exact absurd hdata (by decide)
        · exact ⟨hmem2, hob, hnb, hdata⟩
    · rw [if_neg hemp] at h
      cases hob0 : parseWeightBlock (getL rm fn0) with
      | error e => simp [hob0] at h
      | ok ob0 =>
        cases hnb0 : parseWeightBlock (getL am fn0) with
        | error e => simp [hob0, hnb0] at h
        | ok nb0 =>
          cases hrec : collectFns rm am rest with
          | error e => simp [hob0, hnb0, hrec] at h
          | ok out2 =>
            simp only [hob0, hnb0, hrec, Except.ok.injEq] at h
            have hiff := ih rm am out2 hrec fn ob nb
            by_cases hdata0 : (hasData ob0 || hasData nb0) = true
            · rw [if_pos hdata0] at h
              rw [← h]
              constructor
              · intro hmem
                rcases List.mem_cons.mp hmem with heq | hm2
                · have e1 : fn = fn0 := congrArg Prod.fst heq
                  have e2 : ob = ob0 := congrArg (fun p => p.2.1) heq
                  have e3 : nb = nb0 := congrArg (fun p => p.2.2) heq
                  subst e1; subst e2; subst e3
                  exact ⟨List.mem_cons_self _ _, hob0, hnb0, hdata0⟩
                · have hres := hiff.mp hm2
                  exact ⟨List.mem_cons_of_mem _ hres.1, hres.2⟩
              · rintro ⟨hmem, hob, hnb, hdata⟩
                rcases List.mem_cons.mp hmem with heq | hm2
                · subst heq
                  rw [hob0, Except.ok.injEq] at hob
                  rw [hnb0, Except.ok.injEq] at hnb
                  rw [← hob, ← hnb]
                  exact List.mem_cons_self _ _
                · exact List.mem_cons_of_mem _ (hiff.mpr ⟨hm2, hob, hnb, hdata⟩)
            · rw [if_neg hdata0] at h
              rw [← h, hiff]
              constructor
              · rintro ⟨hm2, hrest⟩
                exact ⟨List.mem_cons_of_mem _ hm2, hrest⟩
              · rintro ⟨hmem, hob, hnb, hdata⟩
                rcases List.mem_cons.mp hmem with heq | hm2
                · subst heq
                  rw [hob0, Except.ok.injEq] at hob
                  rw [hnb0, Except.ok.injEq] at hnb
                  rw [hob, hnb] at hdata0
                  exact absurd hdata hdata0
                · exact ⟨hm2, hob, hnb, hdata⟩

/-- C4: a FunctionChange is emitted for a segmented function if and only if
one of its two extracted records has recognizable cost data: positive base
time, a present minimum execution time, or a non-empty time-multiplier
mapping. -/
theorem claim4_thm (fileLines : List Str) (out : List (Str × Block × Block))
    (h : extractFunctionDiffs fileLines = .ok out) (fn : Str) (ob nb : Block) :
    (fn, ob, nb) ∈ out ↔
      fn ∈ segKeys (segmentLines fileLines) ∧
      parseWeightBlock (getL (segmentLines fileLines).removed fn) = .ok ob ∧
      parseWeightBlock (getL (segmentLines fileLines).added fn) = .ok nb ∧
      (hasData ob || hasData nb) = true := by
  unfold extractFunctionDiffs at h
  exact collectFns_mem _ _ _ _ h fn ob nb

/-- C4 witness: the iff applied to a concrete file diff whose function `foo`
has a removed base-cost line and no added cost data. -/
theorem claim4_witness : ("foo".data, c4Old, emptyBlock) ∈ c4Out :=
  (claim4_thm c4Lines c4Out rfl ("foo".data) c4Old emptyBlock).mpr
    ⟨by decide, rfl, rfl, by decide⟩

theorem searchWith_prop {α : Type} (m : Str → Option α) (P : α → Prop)
    (hm : ∀ s a, m s = some a → P a) :
    ∀ s a, searchWith m s = some a → P a := by
  intro s
  induction s with
  | nil =>
    intro a h
    exact hm [] a h
  | cons c rest ih =>
    intro a h
    simp only [searchWith] at h
    cases hmc : m (c :: rest) with
    | some b =>
      rw [hmc] at h
      have hb : b = a := Option.some.inj h
      rw [← hb]
      exact hm _ b hmc
    | none =>
      rw [hmc] at h
      exact ih a h

theorem bPathAt_pfx (s p : Str) (h : bPathAt s = some p) : "runtime/".data <+: p := by
  unfold bPathAt at h
  cases h1 : dropLit "b/runtime/".data s with
  | none => simp only [h1] at h; exact absurd h (by simp)
  | some s1 =>
    simp only [h1] at h
    cases h2 : munch1 (fun c => !isPySpace c) s1 with
    | none => simp only [h2] at h; exact absurd h (by simp)
    | some pr =>
      obtain ⟨tok, s2⟩ := pr
      simp only [h2] at h
      rw [← Option.some.inj h]
      exact List.prefix_append _ _

theorem bPathSearch_pfx (s p : Str) (h : bPathSearch s = some p) :
    "runtime/".data <+: p :=
  searchWith_prop bPathAt _ bPathAt_pfx s p h

theorem mem_keys_upsertR (m : List (Str × List Str)) (k : Str) (v : List Str) :
    ∀ p ∈ (upsertR m k v).map Prod.fst, p ∈ m.map Prod.fst ∨ p = k := by
  induction m with
  | nil =>
    intro p hp
    simp only [upsertR, List.map_cons, List.map_nil, List.mem_singleton] at hp
    exact Or.inr hp
  | cons hd tl ih =>
    intro p hp
    obtain ⟨k2, v2⟩ := hd
    simp only [upsertR] at hp
    by_cases hk : k2 = k
    · rw [if_pos hk] at hp
      simp only [List.map_cons, List.mem_cons] at hp
      rcases hp with h | h
      · exact Or.inr h
      · exact Or.inl (by simp only [List.map_cons, List.mem_cons]; exact Or.inr h)
    · rw [if_neg hk] at hp
      simp only [List.map_cons, List.mem_cons] at hp
      rcases hp with h | h
      · exact Or.inl (by simp only [List.map_cons, List.mem_cons]; exact Or.inl h)
      · rcases ih p h with h2 | h2
        · exact Or.inl (by simp only [List.map_cons, List.mem_cons]; exact Or.inr h2)
        · exact Or.inr h2

theorem mem_keys_flushFile (cf : Option Str) (cl : List Str)
    (acc : List (Str × List Str)) :
    ∀ p ∈ (flushFile cf cl acc).map Prod.fst,
      p ∈ acc.map Prod.fst ∨ cf = some p := by
  intro p hp
  cases cf with
  | none => exact Or.inl hp
  | some f =>
    simp only [flushFile] at hp
    by_cases hcl : cl.isEmpty
    · rw [if_pos hcl] at hp
      exact Or.inl hp
    · rw [if_neg hcl] at hp
      rcases mem_keys_upsertR acc f cl p hp with h | h
      · exact Or.inl h
      · exact Or.inr (by rw [h])

theorem splitGo_pfx : ∀ (lines : List Str) (cf : Option Str) (cl : List Str)
    (acc : List (Str × List Str)),
    (∀ p ∈ acc.map Prod.fst, "runtime/".data <+: p) →
    (∀ f, cf = some f → "runtime/".data <+: f) →
    ∀ p ∈ (splitGo cf cl acc lines).map Prod.fst, "runtime/".data <+: p := by
  intro lines
  induction lines with
  | nil =>
    intro cf cl acc hacc hcf p hp
    simp only [splitGo] at hp
    rcases mem_keys_flushFile cf cl acc p hp with h | h
    · exact hacc p h
    · exact hcf p h
  | cons line rest ih =>
    intro cf cl acc hacc hcf p hp
    simp only [splitGo] at hp
    by_cases hd : startsWithL "diff --git".data line = true
    · rw [if_pos hd] at hp
      refine ih (bPathSearch line) [] (flushFile cf cl acc) ?_ ?_ p hp
      · intro q hq
        rcases mem_keys_flushFile cf cl acc q hq with h | h
        · exact hacc q h
        · exact hcf q h
      · intro f hf
        exact bPathSearch_pfx line f hf
    · rw [if_neg hd] at hp
      cases hcfv : cf with
      | some g =>
        rw [hcfv] at hp
        exact ih cf (cl ++ [line]) acc hacc hcf p (by rw [hcfv]; exact hp)
      | none =>
        rw [hcfv] at hp
        exact ih cf cl acc hacc hcf p (by rw [hcfv]; exact hp)

theorem changesGo_src : ∀ (fds : List (Str × List Str)) (out : List Change),
    changesGo fds = .ok out →
    ∀ c ∈ out, ∃ fp fl, (fp, fl) ∈ fds ∧
      c.runtime = runtimeOf fp ∧ c.pallet = palletOf fp := by
  intro fds
  induction fds with
  | nil =>
    intro out h c hc
    simp only [changesGo, Except.ok.injEq] at h
    rw [← h] at hc
    exact absurd hc (List.not_mem_nil c)
  | cons hd tl ih =>
    intro out h c hc
    obtain ⟨fp, fl⟩ := hd
    simp only [changesGo] at h
    cases h1 : changesOfFile fp fl with
    | error e => simp [h1] at h
    | ok cs =>
      cases h2 : changesGo tl with
      | error e => simp [h1, h2] at h
      | ok more =>
        simp only [h1, h2, Except.ok.injEq] at h
        rw [← h] at hc
        rcases List.mem_append.mp hc with hin | hin
        · unfold changesOfFile at h1
          cases h3 : extractFunctionDiffs fl with
          | error e => rw [h3] at h1; exact absurd h1 (by simp)
          | ok fds2 =>
            rw [h3] at h1
            have hcs : fds2.map (fun e => (⟨runtimeOf fp, palletOf fp, e.1, e.2.1, e.2.2⟩ : Change)) = cs :=
              Except.ok.inj h1
            rw [← hcs] at hin
            obtain ⟨e, _, he⟩ := List.mem_map.mp hin
            refine ⟨fp, fl, List.mem_cons_self _ _, ?_, ?_⟩
            · rw [← he]
            · rw [← he]
        · obtain ⟨fp2, fl2, hmem, h4, h5⟩ := ih more h2 c hin
          exact ⟨fp2, fl2, List.mem_cons_of_mem _ hmem, h4, h5⟩

/-- C2 (amended): the aggregator retains exactly the files whose `diff --git`
line carries a `b/`-path under the top-level `runtime` directory — no
`weights` segment or extension is required (the counterexample retains a
non-weights `.txt` file) — and every produced change takes its runtime
identifier from the path segment after `runtime` and its pallet identifier
from the filename with all `.rs` occurrences removed. -/
theorem mem_keys_upsertR_self (m : List (Str × List Str)) (k : Str) (v : List Str) :
    k ∈ (upsertR m k v).map Prod.fst := by
  induction m with
  | nil => simp [upsertR]
  | cons hd tl ih =>
    obtain ⟨k2, v2⟩ := hd
    by_cases hk : k2 = k
    · simp [upsertR, hk]
    · simp only [upsertR, if_neg hk, List.map_cons, List.mem_cons]
      exact Or.inr ih

theorem mem_keys_upsertR_mono (m : List (Str × List Str)) (k2 : Str) (v : List Str)
    (k : Str) (h : k ∈ m.map Prod.fst) : k ∈ (upsertR m k2 v).map Prod.fst := by
  induction m with
  | nil => simp at h
  | cons hd tl ih =>
    obtain ⟨k3, v3⟩ := hd
    simp only [List.map_cons, List.mem_cons] at h
    by_cases hk : k3 = k2
    · simp only [upsertR, if_pos hk, List.map_cons, List.mem_cons]
      rcases h with h | h
      · exact Or.inl (h.trans hk)
      · exact Or.inr h
    · simp only [upsertR, if_neg hk, List.map_cons, List.mem_cons]
      rcases h with h | h
      · exact Or.inl h
      · exact Or.inr (ih h)

theorem mem_keys_flushFile_mono (cf : Option Str) (cl : List Str)
    (acc : List (Str × List Str)) (k : Str) (h : k ∈ acc.map Prod.fst) :
    k ∈ (flushFile cf cl acc).map Prod.fst := by
  cases cf with
  | none => exact h
  | some f =>
    simp only [flushFile]
    by_cases hcl : cl.isEmpty
    · rw [if_pos hcl]
      exact h
    · rw [if_neg hcl]
      exact mem_keys_upsertR_mono acc f cl k h

theorem splitGo_keys_mono : ∀ (lines : List Str) (cf : Option Str) (cl : List Str)
    (acc : List (Str × List Str)) (k : Str),
    k ∈ acc.map Prod.fst → k ∈ (splitGo cf cl acc lines).map Prod.fst := by
  intro lines
  induction lines with
  | nil =>
    intro cf cl acc k h
    exact mem_keys_flushFile_mono cf cl acc k h
  | cons line rest ih =>
    intro cf cl acc k h
    simp only [splitGo]
    by_cases hd : startsWithL "diff --git".data line = true
    · rw [if_pos hd]
      exact ih _ _ _ k (mem_keys_flushFile_mono cf cl acc k h)
    · rw [if_neg hd]
      cases cf with
      | some g => exact ih _ _ _ k h
      | none => exact ih _ _ _ k h

theorem splitGo_flushes : ∀ (rest : List Str) (cl : List Str)
    (acc : List (Str × List Str)) (fp : Str), cl ≠ [] →
    fp ∈ (splitGo (some fp) cl acc rest).map Prod.fst := by
  intro rest
  induction rest with
  | nil =>
    intro cl acc fp hcl
    simp only [splitGo, flushFile]
    rw [if_neg (by rw [List.isEmpty_iff]; exact hcl)]
    exact mem_keys_upsertR_self acc fp cl
  | cons line rest2 ih =>
    intro cl acc fp hcl
    simp only [splitGo]
    by_cases hd : startsWithL "diff --git".data line = true
    · rw [if_pos hd]
      refine splitGo_keys_mono rest2 _ [] _ fp ?_
      simp only [flushFile]
      rw [if_neg (by rw [List.isEmpty_iff]; exact hcl)]
      exact mem_keys_upsertR_self acc fp cl
    · rw [if_neg hd]
      exact ih (cl ++ [line]) acc fp (by simp)

theorem splitGo_complete : ∀ (pre : List Str) (hdr next : Str) (rest : List Str)
    (cf : Option Str) (cl : List Str) (acc : List (Str × List Str)) (fp : Str),
    startsWithL "diff --git".data hdr = true →
    bPathSearch hdr = some fp →
    startsWithL "diff --git".data next = false →
    fp ∈ (splitGo cf cl acc (pre ++ hdr :: next :: rest)).map Prod.fst := by
  intro pre
  induction pre with
  | nil =>
    intro hdr next rest cf cl acc fp hh hb hn
    simp only [List.nil_append, splitGo]
    rw [if_pos hh, hb]
    simp only [splitGo]
    rw [if_neg (by rw [hn]; exact Bool.false_ne_true)]
    exact splitGo_flushes rest [next] _ fp (by simp)
  | cons p pre2 ih =>
    intro hdr next rest cf cl acc fp hh hb hn
    simp only [List.cons_append, splitGo]
    by_cases hd : startsWithL "diff --git".data p = true
    · rw [if_pos hd]
      exact ih hdr next rest _ _ _ fp hh hb hn
    · rw [if_neg hd]
      cases cf with
      | some g => exact ih hdr next rest _ _ _ fp hh hb hn
      | none => exact ih hdr next rest _ _ _ fp hh hb hn

/-- C2 (amended): the aggregator retains exactly the files whose `diff --git`
line carries a `b/runtime/...` path and accumulates at least one following
line before the next file boundary — soundness: every retained path starts
with `runtime/` and every change derives its runtime and pallet identifiers
from such a path; completeness: a matching header followed by at least one
non-header line is always retained (a header immediately followed by another
header or by end of input accumulates no lines and is dropped). -/
theorem claim2_thm :
    (∀ (lines : List Str) (fp : Str) (fl : List Str),
      (fp, fl) ∈ splitFiles lines → "runtime/".data <+: fp) ∧
    (∀ (lines : List Str) (out : List Change), allChanges lines = .ok out →
      ∀ c ∈ out, ∃ fp fl, (fp, fl) ∈ splitFiles lines ∧ "runtime/".data <+: fp ∧
        c.runtime = runtimeOf fp ∧ c.pallet = palletOf fp) ∧
    (∀ (pre : List Str) (hdr next : Str) (rest : List Str) (fp : Str),
      startsWithL "diff --git".data hdr = true →
      bPathSearch hdr = some fp →
      startsWithL "diff --git".data next = false →
      fp ∈ (splitFiles (pre ++ hdr :: next :: rest)).map Prod.fst) := by
  have hpfx : ∀ (lines : List Str) (fp : Str) (fl : List Str),
      (fp, fl) ∈ splitFiles lines → "runtime/".data <+: fp := by
    intro lines fp fl h
    exact splitGo_pfx lines none [] [] (by simp) (by simp) fp
      (List.mem_map.mpr ⟨(fp, fl), h, rfl⟩)
  refine ⟨hpfx, ?_, ?_⟩
  · intro lines out h c hc
    obtain ⟨fp, fl, hmem, h1, h2⟩ := changesGo_src (splitFiles lines) out h c hc
    exact ⟨fp, fl, hmem, hpfx lines fp fl hmem, h1, h2⟩
  · intro pre hdr next rest fp hh hb hn
    exact splitGo_complete pre hdr next rest none [] [] fp hh hb hn

/-- C2 witness: the amended statement applied to the concrete non-weights
diff of the counterexample — its path starts with the runtime directory, its change
derives runtime and pallet from it, and the header followed by a hunk line
is retained. -/
theorem claim2_witness :
    ("runtime/".data <+: c2Path) ∧
    (∃ fp fl, (fp, fl) ∈ splitFiles c2Lines ∧ "runtime/".data <+: fp ∧
      c2Change.runtime = runtimeOf fp ∧ c2Change.pallet = palletOf fp) ∧
    c2Path ∈ (splitFiles c2Lines).map Prod.fst :=
  ⟨claim2_thm.1 c2Lines c2Path (c2Lines.drop 1) (by
      have h : splitFiles c2Lines = [(c2Path, c2Lines.drop 1)] := rfl
      rw [h]
      exact List.mem_singleton.mpr rfl),
   claim2_thm.2.1 c2Lines [c2Change] rfl c2Change (List.mem_singleton.mpr rfl),
   claim2_thm.2.2 []
     ("diff --git a/runtime/common/src/utils.txt b/runtime/common/src/utils.txt".data)
     ("@@ -1 +1 @@ fn foo(".data)
     ["-    Weight::from_parts(100, 5)".data, "+    Weight::from_parts(300, 5)".data]
     c2Path rfl rfl (by decide)⟩

theorem mem_getL_appendAt {α : Type} (m : List (Str × List α)) (k2 k : Str) (v e : α)
    (h : e ∈ getL (appendAt m k2 v) k) : e ∈ getL m k ∨ (e = v ∧ k = k2) := by
  induction m with
  | nil =>
    simp only [appendAt] at h
    by_cases hk : k2 = k
    · simp only [getL, if_pos hk, List.mem_singleton] at h
      exact Or.inr ⟨h, hk.symm⟩
    · simp only [getL, if_neg hk] at h
      exact absurd h (List.not_mem_nil e)
  | cons hd tl ih =>
    obtain ⟨k3, vs⟩ := hd
    simp only [appendAt] at h
    by_cases hk : k3 = k2
    · rw [if_pos hk] at h
      by_cases hk3 : k3 = k
      · simp only [getL, if_pos hk3] at h ⊢
        rcases List.mem_append.mp h with h2 | h2
        · exact Or.inl h2
        · exact Or.inr ⟨List.mem_singleton.mp h2, by rw [← hk3, hk]⟩
      · simp only [getL, if_neg hk3] at h ⊢
        exact Or.inl h
    · rw [if_neg hk] at h
      by_cases hk3 : k3 = k
      · simp only [getL, if_pos hk3] at h ⊢
        exact Or.inl h
      · simp only [getL, if_neg hk3] at h ⊢
        exact ih h

theorem mem_getL_groupFold : ∀ (entries : List MulEntry)
    (m : List (Str × List MulEntry)) (k : Str) (e : MulEntry),
    e ∈ getL (entries.foldl (fun m2 e2 => appendAt m2 (keyOf e2.c) e2) m) k →
    e ∈ getL m k ∨ (e ∈ entries ∧ keyOf e.c = k) := by
  intro entries
  induction entries with
  | nil =>
    intro m k e h
    exact Or.inl h
  | cons e0 rest ih =>
    intro m k e h
    rw [List.foldl_cons] at h
    rcases ih _ k e h with h2 | h2
    · rcases mem_getL_appendAt m (keyOf e0.c) k e0 e h2 with h3 | h3
      · exact Or.inl h3
      · exact Or.inr ⟨by rw [h3.1]; exact List.mem_cons_self _ _, by rw [h3.1, h3.2]⟩
    · exact Or.inr ⟨List.mem_cons_of_mem _ h2.1, h2.2⟩

theorem mem_groupByKey (entries : List MulEntry) (k : Str) (e : MulEntry)
    (h : e ∈ getL (groupByKey entries) k) : e ∈ entries ∧ keyOf e.c = k := by
  rcases mem_getL_groupFold entries [] k e h with h2 | h2
  · exact absurd h2 (List.not_mem_nil e)
  · exact h2

theorem mem_sortMul (l : List MulEntry) (e : MulEntry) (h : e ∈ sortMul l) : e ∈ l :=
  (List.Perm.mem_iff (List.perm_insertionSort mulGe l)).mp h

/-- C5 (amended): within a reported group, the storage-read deltas are
unconditional — a variable is listed exactly when its old and new read
multipliers differ, with no threshold anywhere — but the read-delta lines
are emitted only under the significance gate: every reported delta is tagged
with the group key of some entry of the significant time-multiplier list, so
a function key with no time-multiplier entry flagged as significant receives
no read-multiplier delta report (in particular, none at all when the list is
empty). -/
theorem claim5_thm :
    (∀ (c : Change) (rv : Str) (ov nv : Nat),
      (rv, ov, nv) ∈ readDeltasOf c ↔
        rv ∈ allVars c.old.db_reads_per_var c.new.db_reads_per_var ∧
        ov = getD0 c.old.db_reads_per_var rv ∧
        nv = getD0 c.new.db_reads_per_var rv ∧ ov ≠ nv) ∧
    (∀ (changes : List Change) (t : ℚ) (k : Str) (d : Str × Nat × Nat),
      (k, d) ∈ reportedReadDeltas changes t →
      ∃ e ∈ sigMul changes t, keyOf e.c = k) ∧
    (∀ (changes : List Change) (t : ℚ), sigMul changes t = [] →
      reportedReadDeltas changes t = []) := by
  refine ⟨?_, ?_, ?_⟩
  · intro c rv ov nv
    unfold readDeltasOf
    rw [List.mem_filterMap]
    constructor
    · rintro ⟨v, hv, hf⟩
      simp only at hf
      split_ifs at hf with hne
      · have h3 := Option.some.inj hf
        have e1 : v = rv := congrArg Prod.fst h3
        have e2 : getD0 c.old.db_reads_per_var v = ov := congrArg (fun p => p.2.1) h3
        have e3 : getD0 c.new.db_reads_per_var v = nv := congrArg (fun p => p.2.2) h3
        subst e1
        exact ⟨hv, e2.symm, e3.symm, by rw [← e2, ← e3]; exact hne⟩
    · rintro ⟨hv, hov, hnv, hne⟩
      refine ⟨rv, hv, ?_⟩
      subst hov
      subst hnv
      simp only [if_pos hne]
  · intro changes t k d h
    simp only [reportedReadDeltas, List.mem_flatMap] at h
    obtain ⟨k2, hk2, hmem⟩ := h
    cases hg : getL (groupByKey (sortMul (sigMul changes t))) k2 with
    | nil =>
      rw [hg] at hmem
      simp at hmem
    | cons e0 tail =>
      rw [hg] at hmem
      have hmem2 : (k, d) ∈ (readDeltasOf e0.c).map (fun d2 => (k2, d2)) := hmem
      obtain ⟨d2, _, heq⟩ := List.mem_map.mp hmem2
      have hk : k2 = k := congrArg Prod.fst heq
      have he0 : e0 ∈ getL (groupByKey (sortMul (sigMul changes t))) k2 := by
        rw [hg]
        exact List.mem_cons_self _ _
      obtain ⟨hin, hkey⟩ := mem_groupByKey _ _ _ he0
      exact ⟨e0, mem_sortMul _ _ hin, by rw [hkey, hk]⟩
  · intro changes t h
    unfold reportedReadDeltas
    rw [h]
    rfl

/-- A change with a significant time multiplier (10 -> 100) and a differing
storage-read multiplier (0 -> 2) for the same variable. -/
def c5wChange : Change :=
  ⟨"moonbase".data, "p".data, "f".data,
   { emptyBlock with ref_multipliers := [("n".data, 10)] },
   { emptyBlock with ref_multipliers := [("n".data, 100)],
                     db_reads_per_var := [("n".data, 2)] }⟩

def c5wEntry : MulEntry := ⟨c5wChange, "n".data, 10, 100, .val 900⟩

/-- C5 witness: the characterization applied to the concrete change of the
counterexample, the key gate applied to a concretely reported delta, and
the empty-list gate. -/
theorem claim5_witness :
    ("n".data, 0, 2) ∈ readDeltasOf c5Change ∧
    (∃ e ∈ sigMul [c5wChange] 50, keyOf e.c = keyOf c5wChange) ∧
    reportedReadDeltas [] 50 = [] := by
  have hv : pctQ 10 100 = 900 := by norm_num [pctQ]
  have habs : |(900 : ℚ)| > 50 := by rw [abs_of_pos (by norm_num : (0 : ℚ) < 900)]; norm_num
  have hsig : sigMul [c5wChange] 50 = [c5wEntry] := by
    have h0 : sigMul [c5wChange] 50 = mulEntriesFor c5wChange 50 := by
      simp [sigMul]
    rw [h0]
    unfold mulEntriesFor
    rw [(by decide : allVars c5wChange.old.ref_multipliers c5wChange.new.ref_multipliers = ["n".data])]
    rw [List.filterMap_cons, List.filterMap_nil]
    simp only [(by decide : getD0 c5wChange.old.ref_multipliers "n".data = 10),
      (by decide : getD0 c5wChange.new.ref_multipliers "n".data = 100), hv]
    rw [if_pos (by decide : (10 : ℕ) > 0 ∧ (100 : ℕ) > 0)]
    rw [if_pos habs]
    rfl
  have hrep : reportedReadDeltas [c5wChange] 50 =
      [(keyOf c5wChange, ("n".data, 0, 2))] := by
    unfold reportedReadDeltas
    rw [hsig]
    rfl
  refine ⟨(claim5_thm.1 c5Change "n".data 0 2).mpr ⟨by decide, by decide, by decide, by decide⟩,
    claim5_thm.2.1 [c5wChange] 50 (keyOf c5wChange) ("n".data, 0, 2) ?_,
    claim5_thm.2.2 [] 50 rfl⟩
  rw [hrep]
  exact List.mem_singleton.mpr rfl

/-- C6 (amended): a per-runtime summary is produced exactly for the
runtimes of the hardcoded list `moonbase, moonbeam, moonriver` that appear
in the change list with at least one function carrying a nonzero measured
minimum execution time on both sides; any other runtime identifier in the
change list receives no summary. -/
theorem claim6_thm (changes : List Change) (rt : Str) :
    rt ∈ summarizedRuntimes changes ↔
      rt ∈ fixedRuntimes ∧ ∃ c ∈ changes, c.runtime = rt ∧ minBoth c = true := by
  unfold summarizedRuntimes
  rw [List.mem_filter]
  constructor
  · rintro ⟨hfix, hcond⟩
    refine ⟨hfix, ?_⟩
    rw [decide_eq_true_eq] at hcond
    obtain ⟨_, hmin⟩ := hcond
    have hne : rtMinChanges changes rt ≠ [] := by
      intro hnil
      rw [hnil] at hmin
      exact hmin rfl
    obtain ⟨q, hq⟩ := List.exists_mem_of_ne_nil _ hne
    unfold rtMinChanges minChangesOf at hq
    obtain ⟨c, hcf, hfc⟩ := List.mem_filterMap.mp hq
    obtain ⟨hc, hrt⟩ := List.mem_filter.mp hcf
    rw [decide_eq_true_eq] at hrt
    by_cases hmb : minBoth c = true
    · exact ⟨c, hc, hrt, hmb⟩
    · rw [if_neg hmb] at hfc
      exact absurd hfc (by simp)
  · rintro ⟨hfix, c, hc, hrt, hmin⟩
    refine ⟨hfix, ?_⟩
    rw [decide_eq_true_eq]
    constructor
    · intro habs
      rw [List.isEmpty_iff, List.filter_eq_nil_iff] at habs
      exact habs c hc (by rw [decide_eq_true_eq]; exact hrt)
    · intro habs
      rw [List.isEmpty_iff] at habs
      unfold rtMinChanges minChangesOf at habs
      rw [List.filterMap_eq_nil_iff] at habs
      have hcf : c ∈ changes.filter (fun c2 => decide (c2.runtime = rt)) :=
        List.mem_filter.mpr ⟨hc, by rw [decide_eq_true_eq]; exact hrt⟩
      have := habs c hcf
      rw [if_pos hmin] at this
      exact absurd this (by simp)

/-- C6 witness: the amended statement applied to a change list containing a
`moonbase` function with minimum-execution-time data. -/
theorem claim6_witness : "moonbase".data ∈ summarizedRuntimes [c6wChange] :=
  (claim6_thm [c6wChange] "moonbase".data).mpr
    ⟨by decide, c6wChange, List.mem_singleton.mpr rfl, rfl, rfl⟩

/-- C7 (amended): every category list is ordered by the sort key the code
uses —
base increases descending by signed percent, base decreases ascending by
signed percent, minimum-time lists descending by absolute percent, and the
multiplier/proof-size lists descending by the key that maps a finite entry
to its absolute percent and an "appeared" entry to 999999.  Consequently an
"appeared" entry precedes every finite entry of magnitude below 999999, but
a finite entry whose magnitude reaches 999999 may precede it: whenever some
entry precedes an "appeared" entry, its key is at least 999999. -/
theorem claim7_thm (changes : List Change) (t : ℚ) :
    List.Sorted baseGe (sortBaseInc (sigBaseInc changes t)) ∧
    List.Sorted baseLe (sortBaseDec (sigBaseDec changes t)) ∧
    List.Sorted mulGe (sortMul (sigMul changes t)) ∧
    List.Sorted minGe (sortMin (sigMin changes t)) ∧
    List.Sorted mulGe (sortMul (sigProof changes)) ∧
    List.Sorted minGe (sortMin (allMin changes)) ∧
    (sortMul (sigMul changes t)).Pairwise
      (fun x y => y.p = Pct.inf → (999999 : ℚ) ≤ mulKey x) := by
  refine ⟨List.sorted_insertionSort _ _, List.sorted_insertionSort _ _,
    List.sorted_insertionSort _ _, List.sorted_insertionSort _ _,
    List.sorted_insertionSort _ _, List.sorted_insertionSort _ _, ?_⟩
  refine List.Pairwise.imp ?_ (List.sorted_insertionSort mulGe (sigMul changes t))
  intro a b hab hbp
  have hb : mulKey b = 999999 := by simp [mulKey, hbp]
  rw [← hb]
  exact hab

/-- C7 witness: the ordering statement applied to the concrete change of the
counterexample. -/
theorem claim7_witness :
    (sortMul (sigMul [c7Change] 50)).Pairwise
      (fun x y => y.p = Pct.inf → (999999 : ℚ) ≤ mulKey x) :=
  (claim7_thm [c7Change] 50).2.2.2.2.2.2

/-- C7 counterexample: in the sorted per-variable time-multiplier list for
`c7Change`, the "appeared" sentinel entry (`c7e2`) comes after the finite
entry `c7e1` carrying percent 1999900, because the sort key of the sentinel
is the finite number 999999 — refuting "every appeared sentinel entry is sorted
as maximal, i.e. precedes every entry carrying a finite percent value,
whatever that finite value is". -/
theorem claim7_counterexample :
    sortMul (sigMul [c7Change] 50) = [c7e1, c7e2] ∧
    c7e1.p = Pct.val 1999900 ∧ c7e2.p = Pct.inf ∧ mulKey c7e1 > mulKey c7e2 := by
  have hv : pctQ 1 20000 = 1999900 := by norm_num [pctQ]
  have hpos : (0 : ℚ) < 1999900 := by norm_num
  have habs : |(1999900 : ℚ)| > 50 := by rw [abs_of_pos hpos]; norm_num
  have hkey : mulKey c7e1 = 1999900 := by
    simp only [mulKey, c7e1]
    exact abs_of_pos hpos
  have hsig : sigMul [c7Change] 50 = [c7e1, c7e2] := by
    have h0 : sigMul [c7Change] 50 = mulEntriesFor c7Change 50 := by
      simp [sigMul]
    rw [h0]
    unfold mulEntriesFor
    rw [(by decide : allVars c7Change.old.ref_multipliers c7Change.new.ref_multipliers = ["a".data, "b".data])]
    rw [List.filterMap_cons, List.filterMap_cons, List.filterMap_nil]
    simp only [(by decide : getD0 c7Change.old.ref_multipliers "a".data = 1),
      (by decide : getD0 c7Change.new.ref_multipliers "a".data = 20000),
      (by decide : getD0 c7Change.old.ref_multipliers "b".data = 0),
      (by decide : getD0 c7Change.new.ref_multipliers "b".data = 5), hv]
    rw [if_pos (by decide : (1 : ℕ) > 0 ∧ (20000 : ℕ) > 0)]
    rw [if_pos habs]
    rw [if_neg (by decide : ¬ ((0 : ℕ) > 0 ∧ (5 : ℕ) > 0))]
    rw [if_pos (by decide : True ∧ (5 : ℕ) > 0)]
    rfl
  refine ⟨?_, rfl, rfl, by rw [hkey]; simp [mulKey, c7e2]; norm_num⟩
  rw [hsig]
  unfold sortMul List.insertionSort List.insertionSort List.insertionSort
  rw [List.orderedInsert, List.orderedInsert]
  rw [if_pos (by rw [mulGe, hkey]; simp [mulKey, c7e2]; norm_num)]

/-- C8: threshold monotonicity — for `t1 < t2`, every entry flagged
significant at `t2` in a caller-threshold-gated category (base time
increase, base time decrease, per-variable time multiplier, minimum
execution time) is also flagged at `t1`. -/
theorem claim8_thm (changes : List Change) (t1 t2 : ℚ) (h : t1 < t2) :
    (∀ e, e ∈ sigBaseInc changes t2 → e ∈ sigBaseInc changes t1) ∧
    (∀ e, e ∈ sigBaseDec changes t2 → e ∈ sigBaseDec changes t1) ∧
    (∀ e, e ∈ sigMul changes t2 → e ∈ sigMul changes t1) ∧
    (∀ e, e ∈ sigMin changes t2 → e ∈ sigMin changes t1) := by
  refine ⟨?_, ?_, ?_, ?_⟩
  · intro e he
    unfold sigBaseInc at he ⊢
    rw [List.mem_filterMap] at he ⊢
    obtain ⟨c, hc, hf⟩ := he
    refine ⟨c, hc, ?_⟩
    simp only at hf ⊢
    split_ifs at hf with h1 h2
    · rw [if_pos h1, if_pos (lt_trans h h2)]
      exact hf
  · intro e he
    unfold sigBaseDec at he ⊢
    rw [List.mem_filterMap] at he ⊢
    obtain ⟨c, hc, hf⟩ := he
    refine ⟨c, hc, ?_⟩
    simp only at hf ⊢
    split_ifs at hf with h1 h2
    · rw [if_pos h1, if_pos (lt_trans h2 (by linarith : -t2 < -t1))]
      exact hf
  · intro e he
    unfold sigMul at he ⊢
    rw [List.mem_flatMap] at he ⊢
    obtain ⟨c, hc, he2⟩ := he
    refine ⟨c, hc, ?_⟩
    unfold mulEntriesFor at he2 ⊢
    rw [List.mem_filterMap] at he2 ⊢
    obtain ⟨v, hv, hf⟩ := he2
    refine ⟨v, hv, ?_⟩
    simp only at hf ⊢
    split_ifs at hf with h1 h2 h3 h4
    · rw [if_pos h1, if_pos (lt_trans h h2)]
      exact hf
    · rw [if_neg h1, if_pos h3]
      exact hf
    · rw [if_neg h1, if_neg h3, if_pos h4]
      exact hf
  · intro e he
    unfold sigMin at he ⊢
    rw [List.mem_filterMap] at he ⊢
    obtain ⟨c, hc, hf⟩ := he
    refine ⟨c, hc, ?_⟩
    simp only at hf ⊢
    split_ifs at hf with h1 h2
    · rw [if_pos h1, if_pos (lt_trans h h2)]
      exact hf

/-- C8 witness: monotonicity applied at thresholds `t1 = 10 < t2 = 20` to a
concrete change list, in all four gated categories. -/
theorem claim8_witness :
    (c8a, (100 : ℚ)) ∈ sigBaseInc [c8a, c8b] 10 ∧
    (c8b, (-75 : ℚ)) ∈ sigBaseDec [c8a, c8b] 10 ∧
    (⟨c8a, "n".data, 10, 100, .val 900⟩ : MulEntry) ∈ sigMul [c8a, c8b] 10 ∧
    (c8a, 100, 300, (200 : ℚ)) ∈ sigMin [c8a, c8b] 10 := by
  have hv1 : pctQ 100 200 = 100 := by norm_num [pctQ]
  have hv2 : pctQ 200 50 = -75 := by norm_num [pctQ]
  have hv3 : pctQ 10 100 = 900 := by norm_num [pctQ]
  have hv4 : pctQ 100 300 = 200 := by norm_num [pctQ]
  have hmono := claim8_thm [c8a, c8b] 10 20 (by norm_num)
  refine ⟨hmono.1 _ ?_, hmono.2.1 _ ?_, hmono.2.2.1 _ ?_, hmono.2.2.2 _ ?_⟩
  · unfold sigBaseInc
    rw [List.mem_filterMap]
    refine ⟨c8a, by decide, ?_⟩
    simp only [(by decide : c8a.old.base_ref = 100), (by decide : c8a.new.base_ref = 200), hv1]
    rw [if_pos (by decide : (100 : ℕ) > 0 ∧ (200 : ℕ) > 0)]
    rw [if_pos (by norm_num : (100 : ℚ) > 20)]
  · unfold sigBaseDec
    rw [List.mem_filterMap]
    refine ⟨c8b, by decide, ?_⟩
    simp only [(by decide : c8b.old.base_ref = 200), (by decide : c8b.new.base_ref = 50), hv2]
    rw [if_pos (by decide : (200 : ℕ) > 0 ∧ (50 : ℕ) > 0)]
    rw [if_pos (by norm_num : (-75 : ℚ) < -20)]
  · unfold sigMul
    rw [List.mem_flatMap]
    refine ⟨c8a, by decide, ?_⟩
    unfold mulEntriesFor
    rw [List.mem_filterMap]
    refine ⟨"n".data, by decide, ?_⟩
    simp only [(by decide : getD0 c8a.old.ref_multipliers "n".data = 10),
      (by decide : getD0 c8a.new.ref_multipliers "n".data = 100), hv3]
    rw [if_pos (by decide : (10 : ℕ) > 0 ∧ (100 : ℕ) > 0)]
    rw [if_pos (by rw [abs_of_pos (by norm_num : (0 : ℚ) < 900)]; norm_num : |(900 : ℚ)| > 20)]
  · unfold sigMin
    rw [List.mem_filterMap]
    refine ⟨c8a, by decide, ?_⟩
    simp only [(by decide : minBoth c8a = true),
      (by decide : c8a.old.min_execution_time = some 100),
      (by decide : c8a.new.min_execution_time = some 300)]
    rw [if_pos trivial]
    simp only [Option.getD_some, hv4]
    rw [if_pos (by rw [abs_of_pos (by norm_num : (0 : ℚ) < 200)]; norm_num : |(200 : ℚ)| > 20)]

theorem pwbStep_err (b : Block) (l : Str) (e : PyErr)
    (h : pwbStep b l = .error e) : e = .numParse := by
  unfold pwbStep at h
  cases hA : minTimeSearch (stripL l) with
  | some tok =>
    simp only [hA] at h
    cases hA2 : parseNum tok with
    | some n => simp [hA2] at h
    | none =>
      simp only [hA2, Except.error.injEq] at h
      exact h.symm
  | none =>
    simp only [hA] at h
    cases hB : (if containsL satAddL (stripL l) then none else fromPartsSearch (stripL l)) with
    | some pr =>
      obtain ⟨t1, t2⟩ := pr
      simp only [hB] at h
      cases hB1 : parseNum t1 with
      | none =>
        simp only [hB1, Except.error.injEq] at h
        exact h.symm
      | some x =>
        cases hB2 : parseNum t2 with
        | none =>
          simp only [hB1, hB2, Except.error.injEq] at h
          exact h.symm
        | some y => simp [hB1, hB2] at h
    | none =>
    simp only [hB] at h
    cases hC : mulSearch (stripL l) with
    | some tr =>
      obtain ⟨t1, t2, v⟩ := tr
      simp only [hC] at h
      cases hx : parseNum t1 with
      | none =>
        simp only [hx, Except.error.injEq] at h
        exact h.symm
      | some rv =>
        cases hy : parseNum t2 with
        | none =>
          simp only [hx, hy, Except.error.injEq] at h
          exact h.symm
        | some pv => simp [hx, hy] at h
    | none =>
    simp only [hC] at h
    cases hD : readsPerVarSearch (stripL l) with
    | some pr =>
      obtain ⟨ds, v⟩ := pr
      simp [hD] at h
    | none =>
    simp only [hD] at h
    cases hE : readsBaseSearch (stripL l) with
    | some ds =>
      simp only [hE] at h
      by_cases hc : containsL satMulL (stripL l)
      · simp [if_pos hc] at h
      · simp [if_neg hc] at h
    | none => simp [hE] at h

theorem pwbGo_err : ∀ (lines : List Str) (b : Block) (e : PyErr),
    pwbGo b lines = .error e → e = .numParse := by
  intro lines
  induction lines with
  | nil =>
    intro b e h
    simp [pwbGo] at h
  | cons l ls ih =>
    intro b e h
    simp only [pwbGo] at h
    cases hs : pwbStep b l with
    | error e2 =>
      rw [hs] at h
      have he : e2 = e := Except.error.inj h
      rw [← he]
      exact pwbStep_err b l e2 hs
    | ok bmid =>
      rw [hs] at h
      exact ih bmid e h

theorem collectFns_err : ∀ (fns : List Str) (rm am : List (Str × List Str)) (e : PyErr),
    collectFns rm am fns = .error e → e = .numParse := by
  intro fns
  induction fns with
  | nil =>
    intro rm am e h
    simp [collectFns] at h
  | cons fn0 rest ih =>
    intro rm am e h
    simp only [collectFns] at h
    by_cases hemp : ((getL rm fn0).isEmpty && (getL am fn0).isEmpty) = true
    · rw [if_pos hemp] at h
      exact ih rm am e h
    · rw [if_neg hemp] at h
      cases hob : parseWeightBlock (getL rm fn0) with
      | error e2 =>
        simp only [hob, Except.error.injEq] at h
        rw [← h]
        exact pwbGo_err _ _ _ hob
      | ok ob =>
        cases hnb : parseWeightBlock (getL am fn0) with
        | error e2 =>
          simp only [hob, hnb, Except.error.injEq] at h
          rw [← h]
          exact pwbGo_err _ _ _ hnb
        | ok nb =>
          cases hrec : collectFns rm am rest with
          | error e2 =>
            simp only [hob, hnb, hrec, Except.error.injEq] at h
            rw [← h]
            exact ih rm am e2 hrec
          | ok out => simp [hob, hnb, hrec] at h

theorem changesGo_err : ∀ (fds : List (Str × List Str)) (e : PyErr),
    changesGo fds = .error e → e = .numParse := by
  intro fds
  induction fds with
  | nil =>
    intro e h
    simp [changesGo] at h
  | cons hd tl ih =>
    intro e h
    obtain ⟨fp, fl⟩ := hd
    simp only [changesGo] at h
    cases h1 : changesOfFile fp fl with
    | error e2 =>
      simp only [h1, Except.error.injEq] at h
      rw [← h]
      unfold changesOfFile at h1
      cases h3 : extractFunctionDiffs fl with
      | error e3 =>
        rw [h3] at h1
        have : e3 = e2 := Except.error.inj h1
        rw [← this]
        exact collectFns_err _ _ _ _ h3
      | ok fds2 => rw [h3] at h1; exact absurd h1 (by simp)
    | ok cs =>
      cases h2 : changesGo tl with
      | error e2 =>
        simp only [h1, h2, Except.error.injEq] at h
        rw [← h]
        exact ih e2 h2
      | ok more => simp [h1, h2] at h

theorem allChanges_err (lines : List Str) (e : PyErr)
    (h : allChanges lines = .error e) : e = .numParse :=
  changesGo_err (splitFiles lines) e h

/-- C9 (amended): the no-input diagnostic with its non-zero exit occurs
exactly when the input is empty or whitespace-only, and is detected before
any extraction; but blank input is not the only fatal condition — the
counterexample shows a non-blank input on which extraction aborts with a
numeric-parse failure. -/
theorem claim9_thm (input : Str) (t : ℚ) :
    analyze input t = .error .noInput ↔ isBlankInput input = true := by
  unfold analyze
  by_cases hb : isBlankInput input = true
  · rw [if_pos hb]
    simp [hb]
  · rw [if_neg hb]
    constructor
    · intro h
      cases hac : allChanges (splitOnChar '\n' input) with
      | ok cs =>
        rw [hac] at h
        exact absurd h (by simp)
      | error e =>
        rw [hac] at h
        have he : e = .numParse := allChanges_err _ _ hac
        rw [he] at h
        exact absurd (Except.error.inj h) (by decide)
    · intro h
      exact absurd h hb

/-- C9 witness: the diagnostic-iff applied to a concrete whitespace-only
input. -/
theorem claim9_witness : analyze "   ".data 50 = Except.error PyErr.noInput :=
  (claim9_thm "   ".data 50).mpr rfl

theorem startsWith_shape (pre l : Str) (h : startsWithL pre l = true) :
    ∃ t, l = pre ++ t := by
  obtain ⟨t, ht⟩ := Iff.mp List.isPrefixOf_iff_prefix h
  exact ⟨t, ht.symm⟩

theorem getL_appendAt_self {α : Type} (m : List (Str × List α)) (k : Str) (v : α) :
    getL (appendAt m k v) k = getL m k ++ [v] := by
  induction m with
  | nil => simp [appendAt, getL]
  | cons hd tl ih =>
    obtain ⟨k2, vs⟩ := hd
    by_cases hk : k2 = k
    · simp [appendAt, getL, hk]
    · simp [appendAt, getL, hk, ih]

theorem isMetaL_not_rem (l : Str) (h : isMetaL l = true) :
    isRemL l = false ∧ isAddL l = false := by
  unfold isMetaL at h
  rw [Bool.or_eq_true, Bool.or_eq_true] at h
  rcases h with (h | h) | h
  all_goals obtain ⟨t, ht⟩ := startsWith_shape _ _ h
  all_goals subst ht
  all_goals constructor
  all_goals simp [isRemL, isAddL, startsWithL, List.isPrefixOf]

theorem meta_of_atat (l : Str) (h : startsWithL "@@".data l = true) :
    isMetaL l = false := by
  obtain ⟨t, ht⟩ := startsWith_shape _ _ h
  subst ht
  simp [isMetaL, startsWithL, List.isPrefixOf]

theorem atat_segStep (st : SegSt) (l : Str)
    (h : startsWithL "@@".data l = true) (hfn : hunkFnSearch l = none) :
    segStep st l = st := by
  have hm : isMetaL l = false := meta_of_atat l h
  unfold segStep
  rw [if_neg (by rw [hm]; exact Bool.false_ne_true)]
  rw [if_pos h]
  rw [hfn]

theorem segStep_keep (st : SegSt) (l : Str) (f : Str) (hcur : st.cur = some f)
    (hat : startsWithL "@@".data l = false)
    (hdecl : fnDeclMatch (contentOf l) = none) :
    (segStep st l).cur = some f ∧
    (segStep st l).removed = (if isRemL l then appendAt st.removed f (l.drop 1) else st.removed) ∧
    (segStep st l).added = (if isAddL l then appendAt st.added f (l.drop 1) else st.added) := by
  by_cases hm : isMetaL l = true
  · obtain ⟨hr, ha⟩ := isMetaL_not_rem l hm
    have hstep : segStep st l = st := by
      unfold segStep
      rw [if_pos hm]
    rw [hstep, hr, ha]
    simp [hcur]
  · rw [Bool.not_eq_true] at hm
    unfold segStep
    simp only [hm, hat, Bool.false_eq_true, if_false, hdecl, hcur]
    by_cases hr : isRemL l = true
    · have hadd : isAddL l = false := by
        unfold isRemL at hr
        obtain ⟨t, ht⟩ := startsWith_shape "-".data l ((Bool.and_eq_true _ _).mp hr).1
        subst ht
        simp [isAddL, startsWithL, List.isPrefixOf]
      simp [hr, hadd]
    · simp only [hr, Bool.false_eq_true, if_false]
      by_cases ha : isAddL l = true
      · simp [ha]
      · simp only [ha, Bool.false_eq_true, if_false]
        exact ⟨hcur, by trivial, by trivial⟩

theorem segBody : ∀ (body : List Str) (st : SegSt) (f : Str),
    st.cur = some f →
    (∀ l ∈ body, startsWithL "@@".data l = false ∧ fnDeclMatch (contentOf l) = none) →
    (List.foldl segStep st body).cur = some f ∧
    getL (List.foldl segStep st body).removed f =
      getL st.removed f ++ (body.filter (fun l => isRemL l)).map (fun l => l.drop 1) ∧
    getL (List.foldl segStep st body).added f =
      getL st.added f ++ (body.filter (fun l => isAddL l)).map (fun l => l.drop 1) := by
  intro body
  induction body with
  | nil =>
    intro st f hcur hb
    simp [hcur]
  | cons l ls ih =>
    intro st f hcur hb
    have hl := hb l (List.mem_cons_self _ _)
    have hstep := segStep_keep st l f hcur hl.1 hl.2
    have hrest := ih (segStep st l) f hstep.1 (fun x hx => hb x (List.mem_cons_of_mem _ hx))
    rw [List.foldl_cons]
    refine ⟨hrest.1, ?_, ?_⟩
    · rw [hrest.2.1, hstep.2.1, List.filter_cons]
      by_cases hr : isRemL l = true
      · rw [if_pos hr, if_pos (by rw [hr] : isRemL l = true)]
        rw [getL_appendAt_self]
        simp [List.append_assoc]
      · rw [if_neg (by rw [Bool.not_eq_true] at hr; rw [hr]; exact Bool.false_ne_true),
          if_neg (by simpa using hr)]
    · rw [hrest.2.2, hstep.2.2, List.filter_cons]
      by_cases ha : isAddL l = true
      · rw [if_pos ha, if_pos (by rw [ha] : isAddL l = true)]
        rw [getL_appendAt_self]
        simp [List.append_assoc]
      · rw [if_neg (by rw [Bool.not_eq_true] at ha; rw [ha]; exact Bool.false_ne_true),
          if_neg (by simpa using ha)]

/-- C10 (amended): the current-function cursor persists across hunk
boundaries — after a hunk header with no function token, processing the
hunk body (holding no function declaration lines) leaves the cursor on the
previously identified function, and attributes to that function exactly the
added and removed lines of the body other than metadata-like lines (those
beginning with `---`, `+++`, or `index `), which are skipped unconditionally
even after a function has been identified. -/
theorem claim10_thm (header : Str) (body : List Str) (st : SegSt) (f : Str)
    (hcur : st.cur = some f)
    (hhdr : startsWithL "@@".data header = true)
    (hfn : hunkFnSearch header = none)
    (hbody : ∀ l ∈ body, startsWithL "@@".data l = false ∧ fnDeclMatch (contentOf l) = none) :
    (List.foldl segStep st (header :: body)).cur = some f ∧
    getL (List.foldl segStep st (header :: body)).removed f =
      getL st.removed f ++ (body.filter (fun l => isRemL l)).map (fun l => l.drop 1) ∧
    getL (List.foldl segStep st (header :: body)).added f =
      getL st.added f ++ (body.filter (fun l => isAddL l)).map (fun l => l.drop 1) := by
  rw [List.foldl_cons, atat_segStep st header hhdr hfn]
  exact segBody body st f hcur hbody

/-- C10 witness: the cursor-persistence statement applied to the concrete
no-function-token hunk of the counterexample, from a state whose cursor is
already on `foo`. -/
theorem claim10_witness :
    (List.foldl segStep c10St ["@@ -2 +2 @@".data, "---x".data, "-y".data]).cur = some "foo".data ∧
    getL (List.foldl segStep c10St ["@@ -2 +2 @@".data, "---x".data, "-y".data]).removed "foo".data =
      getL c10St.removed "foo".data ++
        ((["---x".data, "-y".data].filter (fun l => isRemL l)).map (fun l => l.drop 1)) ∧
    getL (List.foldl segStep c10St ["@@ -2 +2 @@".data, "---x".data, "-y".data]).added "foo".data =
      getL c10St.added "foo".data ++
        ((["---x".data, "-y".data].filter (fun l => isAddL l)).map (fun l => l.drop 1)) :=
  claim10_thm ("@@ -2 +2 @@".data) ["---x".data, "-y".data] c10St "foo".data rfl rfl rfl
    (by decide)

end WeightDiff
